import Mathlib

/-!
Verification of the rybasom-paper scripts.

The Python sources are shallowly embedded as Lean functions:
* `reformat_tblout` (identical copies in `compare_all_seqs_to_cm.py` and
  `find_truncated_genes.py`) works on the list of lines of a file, each line a
  `List Char`;
* `make_ribogrove_top_longest_df` (`release_preparation/src/top_longest_genes.py`)
  works on a list of gene-statistics records; pandas `.loc` reads that can raise
  `KeyError` are modelled with `Option`;
* `run_cmpress` (`compare_all_seqs_to_cm.py`) is modelled as a transition
  function over the list of outcomes of the successive `cmpress` subprocess
  invocations;
* the chunk loop of `gis_to_accs.py` is modelled over the per-page lists of
  attempt outcomes of the Entrez requests;
* the pandas left merges of `merge_bases_categories_taxonomy.py` are modelled on
  generic keyed rows (`to_csv`'s `na_rep='NA'` rendering of missing cells is
  folded into the merge).

All recursive definitions are structural (using fuel where the Python loop is
not), so that every definition evaluates inside the kernel.
-/

namespace Rybasom

/-! ### Python string primitives used by `reformat_tblout` -/

/-- `leadsWith pat s` is true when `pat` is an initial segment of `s`
(the test CPython's `str.replace` performs at each scan position). -/
def leadsWith : List Char → List Char → Bool
  | [], _ => true
  | _ :: _, [] => false
  | a :: as, b :: bs => a == b && leadsWith as bs

/-- Fuel-driven core of Python's `str.replace`: scan left to right, replace each
non-overlapping occurrence of the pattern and continue after the replaced
segment.  The fuel is an upper bound on the number of scan steps; callers pass
the length of the string, which suffices for a non-empty pattern. -/
def pyReplaceAux (pat rep : List Char) : Nat → List Char → List Char
  | 0, s => s
  | _ + 1, [] => []
  | fuel + 1, a :: s =>
    if leadsWith pat (a :: s) then
      rep ++ pyReplaceAux pat rep fuel (List.drop (pat.length - 1) s)
    else
      a :: pyReplaceAux pat rep fuel s

/-- Python's `s.replace(pat, rep)` on character lists.  An empty pattern is
never passed by the embedded code; it is mapped to the identity. -/
def pyReplaceStr (pat rep s : List Char) : List Char :=
  match pat with
  | [] => s
  | _ :: _ => pyReplaceAux pat rep s.length s

/-- The characters removed by Python's default `str.strip` (ASCII whitespace). -/
def isPyWs (c : Char) : Bool :=
  c == ' ' || c == '\t' || c == '\n' || c == '\r' || c == '\x0b' || c == '\x0c'

/-- Python's `str.strip()`: drop leading and trailing whitespace. -/
def pyStrip (s : List Char) : List Char :=
  ((s.dropWhile isPyWs).reverse.dropWhile isPyWs).reverse

/-- A run of `k` space characters, the pattern `' '*space_num` of the source. -/
def spaces (k : Nat) : List Char := List.replicate k ' '

/-- One iteration of the source's collapsing loop:
`lines[i] = lines[i].replace(' '*space_num, ' ')`. -/
def collapsePass (s : List Char) (k : Nat) : List Char :=
  pyReplaceStr (spaces k) [' '] s

/-- The run lengths visited by `range(20, 1, -1)`: `[20, 19, ..., 2]`. -/
def collapseNums : List Nat := (List.range' 2 19).reverse

/-- The full space-collapsing loop of `reformat_tblout`. -/
def collapseSpaces (s : List Char) : List Char :=
  collapseNums.foldl collapsePass s

/-- The bacterial SSU label replaced by `reformat_tblout`. -/
def bacLabelSp : List Char := "Bacterial small subunit ribosomal RNA".toList

/-- Its underscore-joined replacement. -/
def bacLabelUnd : List Char := "Bacterial_small_subunit_ribosomal_RNA".toList

/-- The archaeal SSU label replaced by `reformat_tblout`. -/
def arcLabelSp : List Char := "Archaeal small subunit ribosomal RNA".toList

/-- Its underscore-joined replacement. -/
def arcLabelUnd : List Char := "Archaeal_small_subunit_ribosomal_RNA".toList

/-- The two label substitutions of `reformat_tblout`, bacterial first. -/
def substLabels (s : List Char) : List Char :=
  pyReplaceStr arcLabelSp arcLabelUnd (pyReplaceStr bacLabelSp bacLabelUnd s)

/-- The final pass `lines[i].replace(' ', '\t')`. -/
def spaceToTab (s : List Char) : List Char :=
  pyReplaceStr [' '] ['\t'] s

/-- The comment filter `lambda x: x[0] != '#'` of `reformat_tblout` (on a raw
`readlines` line; here on a line without its trailing newline, whence the
`Option`). -/
def keepLine (l : List Char) : Bool := l.head? != some '#'

/-- The per-line pipeline of `reformat_tblout`: strip, collapse space runs,
substitute the two labels, replace spaces with tabs. -/
def processLine (s : List Char) : List Char :=
  spaceToTab (substLabels (collapseSpaces (pyStrip s)))

/-- `reformat_tblout` as a function from the list of lines of the input file to
the list of lines of the output file: keep non-comment lines, strip them, run
the three replacement passes and prepend the header line. -/
def reformat_tblout (lines : List (List Char)) (header : List Char) :
    List (List Char) :=
  header ::
    ((((lines.filter keepLine).map pyStrip).map collapseSpaces).map
      substLabels).map spaceToTab

/-- The `tblout_header` constant of both scripts. -/
def tbloutHeader : List Char :=
  "target_name\taccession\tquery_name\taccession\tmdl\tmdl_from\tmdl_to\tseq_from\tseq_to\tstrand\ttrunc\tpass\tgc\tbias\tscore\tEvalue\tinc\tdescription_of_target".toList

/-! ### A grammar for conforming data lines

A conforming line is a first word followed by (gap, word) pairs: single-word
fields separated by runs of spaces.  `renderLine` produces the raw text of such
a line, `tabJoinLine` the tab-joined text the spec expects. -/

/-- A word is a non-empty run of non-whitespace characters. -/
def goodWord (w : List Char) : Prop := w ≠ [] ∧ ∀ c ∈ w, isPyWs c = false

/-- Text of the tail of a conforming line: each field preceded by its gap. -/
def renderTail : List (Nat × List Char) → List Char
  | [] => []
  | (g, w) :: rest => spaces g ++ w ++ renderTail rest

/-- Raw text of a conforming line. -/
def renderLine (w0 : List Char) (rest : List (Nat × List Char)) : List Char :=
  w0 ++ renderTail rest

/-- Tab-joined tail. -/
def tabTail : List (Nat × List Char) → List Char
  | [] => []
  | (_, w) :: rest => '\t' :: (w ++ tabTail rest)

/-- The tab-joined form of a conforming line. -/
def tabJoinLine (w0 : List Char) (rest : List (Nat × List Char)) : List Char :=
  w0 ++ tabTail rest

/-- `hasOccur pat s` decides whether `pat` occurs as a contiguous segment of
`s` (the condition under which `str.replace` changes the string). -/
def hasOccur (pat : List Char) : List Char → Bool
  | [] => pat.isEmpty
  | a :: s => leadsWith pat (a :: s) || hasOccur pat s

/-- A conforming row of the grammar of §8 of the spec: a non-empty
non-whitespace first word, then fields preceded by gaps of 1 to 19 spaces. -/
def goodRow (r : List Char × List (Nat × List Char)) : Prop :=
  goodWord r.1 ∧ ∀ p ∈ r.2, (1 ≤ p.1 ∧ p.1 ≤ 19) ∧ goodWord p.2

instance (w : List Char) : Decidable (goodWord w) := by
  unfold goodWord
  infer_instance

instance (r : List Char × List (Nat × List Char)) : Decidable (goodRow r) := by
  unfold goodRow
  infer_instance

/-- Two consecutive spaces, the smallest collapsible run. -/
def twoSpaces : List Char := [' ', ' ']

/-- What a run of `g` spaces becomes under one `replace(' '*k, ' ')` pass when
it is delimited by non-space characters (fuel-driven, fuel `g`). -/
def gapStepAux (k : Nat) : Nat → Nat → Nat
  | 0, g => g
  | fuel + 1, g => if 1 ≤ k ∧ k ≤ g then 1 + gapStepAux k fuel (g - k) else g

/-- Gap evolution under one collapse pass. -/
def gapStep (k g : Nat) : Nat := gapStepAux k g g

/-- Gap evolution under the whole collapsing loop (`k = 20, …, 2`). -/
def foldPasses (g : Nat) : Nat :=
  collapseNums.foldl (fun g k => gapStep k g) g

/-- The spec-side pipeline of claim C6: substitute the two labels *before*
delimiter normalisation (space-run collapsing, then space-to-tab). -/
def specFirstLine (s : List Char) : List Char :=
  spaceToTab (collapseSpaces (substLabels (pyStrip s)))

/-- File-level form of the C6 spec pipeline. -/
def specFirstReformat (lines : List (List Char)) (header : List Char) :
    List (List Char) :=
  header :: ((lines.filter keepLine).map fun l => specFirstLine l)

/-! ### `make_ribogrove_top_longest_df` (release_preparation/src/top_longest_genes.py)

One row of `gene_stats_df` carries the columns the function touches.  Pandas
`.loc[i, col]` on a missing integer label raises `KeyError`; every such read is
modelled with `Option`, and a raised exception makes the whole call `none`. -/

/-- One row of the input gene-statistics table. -/
structure GeneRow where
  ass_id : Nat
  len : Nat
  seqID : String
  title : String
  domain : String
deriving DecidableEq, Repr

/-- One row of the output dataframe (`out_columns`); `seqID` holds the list of
all sequence IDs of the genome at the maximum length. -/
structure TopRow where
  ass_id : Nat
  len : Nat
  seqID : List String
  title : String
  domain : String
deriving DecidableEq, Repr

/-- First-occurrence deduplication with an explicit `seen` accumulator. -/
def dedupAux (seen : List Nat) : List Nat → List Nat
  | [] => []
  | a :: rest =>
    if a ∈ seen then dedupAux seen rest else a :: dedupAux (a :: seen) rest

/-- Insert into an ascending list. -/
def insAsc (a : Nat) : List Nat → List Nat
  | [] => [a]
  | b :: bs => if a ≤ b then a :: b :: bs else b :: insAsc a bs

/-- Ascending insertion sort (the order `groupby('ass_id')` yields its keys in). -/
def sortAsc : List Nat → List Nat
  | [] => []
  | a :: as => insAsc a (sortAsc as)

/-- Maximum of the `len` column over the rows of one assembly (the group is
non-empty whenever the assembly id comes from the table). -/
def maxLenOf (rows : List GeneRow) (a : Nat) : Nat :=
  ((rows.filter (fun r => r.ass_id == a)).map (fun r => r.len)).foldr max 0

/-- The `groupby('ass_id', as_index=False).agg({'len': 'max'})` step on the
rows of one domain: distinct assembly ids (ascending) with their maximum gene
length. -/
def groupMax (rows : List GeneRow) : List (Nat × Nat) :=
  (sortAsc (dedupAux [] (rows.map (fun r => r.ass_id)))).map
    (fun a => (a, maxLenOf rows a))

/-- Insert into a list sorted by second component descending (stable). -/
def insDesc (x : Nat × Nat) : List (Nat × Nat) → List (Nat × Nat)
  | [] => [x]
  | y :: ys => if y.2 ≤ x.2 then x :: y :: ys else y :: insDesc x ys

/-- Stable insertion sort by maximum length descending, the
`sort_values(by='len', ascending=False)` step.  (Pandas' default unstable
quicksort leaves the order of tied genomes unspecified; this embedding fixes
the stable order, one of the admitted outcomes.) -/
def sortLenDesc : List (Nat × Nat) → List (Nat × Nat)
  | [] => []
  | x :: xs => insDesc x (sortLenDesc xs)

/-- Fuel-driven while loop of the selector.  State: `k` is
`top_genome_counter`, `tie` is `next_len_the_same`.  Each iteration reads
`max_len_domain_df.loc[k]` and `.loc[k+1]`; a read past the end is the
`KeyError` of the unguarded source, modelled as `none`. -/
def selRecAux (df : List (Nat × Nat)) (N : Nat) :
    Nat → Nat → Bool → Option (List (Nat × Nat))
  | 0, _, _ => none
  | fuel + 1, k, tie =>
    if k < N ∨ tie = true then
      match df[k]?, df[k + 1]? with
      | some cur, some next =>
        (selRecAux df N fuel (k + 1) (cur.2 == next.2)).map (cur :: ·)
      | _, _ => none
    else
      some []

/-- The selection loop of one domain, including the initial
`next_len_the_same = loc[0] == loc[1]` read performed before the loop (which
already raises when the domain has fewer than two genomes). -/
def selectDomain (df : List (Nat × Nat)) (N : Nat) : Option (List (Nat × Nat)) :=
  match df[0]?, df[1]? with
  | some a, some b => selRecAux df N (df.length + 1) 0 (a.2 == b.2)
  | _, _ => none

/-- `series_to_append` for one selected genome: filter the *whole* input table
by assembly id and maximum length, then take the first row's scalar fields and
the list of all sequence IDs.  An empty selection would make the Python `[0]`
indexing fail, hence `Option`. -/
def buildRow (geneStats : List GeneRow) (sel : Nat × Nat) : Option TopRow :=
  match geneStats.filter (fun r => r.ass_id == sel.1 && r.len == sel.2) with
  | [] => none
  | r :: rs =>
    some
      { ass_id := r.ass_id
        len := r.len
        seqID := ((r :: rs).map (fun q => q.seqID))
        title := r.title
        domain := r.domain }

/-- All output rows of one domain. -/
def domainRows (geneStats : List GeneRow) (domain : String) (N : Nat) :
    Option (List TopRow) := do
  let sub := geneStats.filter (fun r => r.domain == domain)
  let df := sortLenDesc (groupMax sub)
  let sel ← selectDomain df N
  sel.mapM (buildRow geneStats)

/-- `make_ribogrove_top_longest_df gene_stats_df top_num`: the Bacteria rows
followed by the Archaea rows; `none` models the `KeyError` the unguarded
boundary reads raise. -/
def make_ribogrove_top_longest_df (geneStats : List GeneRow) (N : Nat) :
    Option (List TopRow) := do
  let bact ← domainRows geneStats "Bacteria" N
  let arch ← domainRows geneStats "Archaea" N
  pure (bact ++ arch)

/-! Spec-side definitions for claim C2, transcribed from the claim's words:
the distinct genomes of a domain ordered by maximum gene length descending,
truncated to the first `N` genomes and extended transitively while each
immediately-following genome exactly ties the previously included one. -/

/-- Transitive tie extension past the truncation point: keep taking genomes
while each one's maximum length equals the previously included one's. -/
def specExtend (prev : Nat) : List (Nat × Nat) → List (Nat × Nat)
  | [] => []
  | x :: xs => if x.2 = prev then x :: specExtend x.2 xs else []

/-- The claim's selection for one domain: the first `N` genomes of the
descending list, extended transitively from the last included one. -/
def specSelect (df : List (Nat × Nat)) (N : Nat) : List (Nat × Nat) :=
  match (df.take N).getLast? with
  | none => []
  | some a => df.take N ++ specExtend a.2 (df.drop N)

/-- The claim's output row for a selected genome `(a, L)`: the assembly
identifier, the tied maximum length, the list of all sequence IDs achieving the
maximum, and the title and domain label of the first such sequence. -/
def specRow (geneStats : List GeneRow) (sel : Nat × Nat) : Option TopRow :=
  match geneStats.filter (fun r => r.ass_id == sel.1 && r.len == sel.2) with
  | [] => none
  | r :: rs =>
    some
      { ass_id := sel.1
        len := sel.2
        seqID := ((r :: rs).map (fun q => q.seqID))
        title := r.title
        domain := r.domain }

/-- Spec-side rows of one domain. -/
def specDomainRows (geneStats : List GeneRow) (domain : String) (N : Nat) :
    Option (List TopRow) := do
  let sub := geneStats.filter (fun r => r.domain == domain)
  let df := sortLenDesc (groupMax sub)
  (specSelect df N).mapM (specRow geneStats)

/-- The selection described by claim C2, for both fixed domains in order. -/
def specTopLongest (geneStats : List GeneRow) (N : Nat) :
    Option (List TopRow) := do
  let bact ← specDomainRows geneStats "Bacteria" N
  let arch ← specDomainRows geneStats "Archaea" N
  pure (bact ++ arch)

/-! ### `run_cmpress` (compare_all_seqs_to_cm.py) -/

/-- Exit code and standard error of one `cmpress` subprocess invocation. -/
structure ProcOut where
  code : Int
  err : List Char
deriving DecidableEq, Repr

/-- Final outcome of the modelled `run_cmpress` call. -/
inductive CmpressOutcome where
  | success
  | fatalExit
  | noMoreResults
deriving DecidableEq, Repr

/-- Observable behaviour of `run_cmpress`: how many times `cmpress` was
invoked, which files were `os.unlink`ed (in order), and how the call ended. -/
structure CmpressRun where
  invocations : Nat
  deleted : List (List Char)
  outcome : CmpressOutcome
deriving DecidableEq, Repr

/-- Search for `" file " ++ rfam` starting strictly after the beginning of the
text (the leading `.+` of the pattern), modelling
`re.search(r'.+ file ({rfam}.+) already exists', error_msg)`.  The leading and
inner `.+` are greedy, so the scan keeps the *last* viable start and the *last*
`" already exists"` after it; the captured group is returned.  The pattern's
`.` not matching a newline is not modelled (cmpress emits one-line
diagnostics). -/
def alreadyExistsSearch (rfam text : List Char) : Option (List Char) :=
  let needle := (" file ".toList) ++ rfam
  let tailPat := " already exists".toList
  let goodStart := fun i =>
    decide (1 ≤ i) && leadsWith needle (text.drop i) &&
      ((List.range (text.length + 1)).filter
        (fun k =>
          decide (1 ≤ k) &&
            leadsWith tailPat ((text.drop (i + needle.length)).drop k))).length
        != 0
  match ((List.range (text.length + 1)).filter goodStart).getLast? with
  | none => none
  | some i =>
    let after := text.drop (i + needle.length)
    match ((List.range (text.length + 1)).filter
        (fun k => decide (1 ≤ k) && leadsWith tailPat (after.drop k))).getLast? with
    | none => none
    | some k => some (rfam ++ after.take k)

/-- `run_cmpress` over the list of outcomes of the successive subprocess
invocations: a zero exit code succeeds; a failing invocation whose stderr
matches the already-exists pattern deletes the captured path and recurses; any
other failure is `sys.exit(1)`.  An empty outcome list means the modelled trace
ran out (`noMoreResults`). -/
def run_cmpress (rfam : List Char) : List ProcOut → CmpressRun
  | [] => ⟨0, [], .noMoreResults⟩
  | p :: rest =>
    if p.code ≠ 0 then
      match alreadyExistsSearch rfam p.err with
      | some path =>
        let r := run_cmpress rfam rest
        ⟨r.invocations + 1, path :: r.deleted, r.outcome⟩
      | none => ⟨1, [], .fatalExit⟩
    else
      ⟨1, [], .success⟩

/-! ### the chunk loop of `gis_to_accs.py` -/

/-- One record of an `Entrez.read` result. -/
structure EntrezRec where
  recId : String
  accessionVersion : String
  title : String
deriving DecidableEq, Repr

/-- Outcome of one page. -/
inductive PageOutcome where
  | ok (recs : List EntrezRec)
  | aborted
  | starved
deriving DecidableEq, Repr

/-- Outcome of the whole run. -/
inductive RunOutcome where
  | completed
  | aborted
  | starved
deriving DecidableEq, Repr

/-- The `while error` retry loop of one page over the list of outcomes of the
successive `Entrez.esummary` attempts (`none` = exception).  `nerr` is
`n_errors`; the third consecutive failure raises `OSError` (`aborted`).
`starved` is the model artifact of running out of listed attempts. -/
def processPage (nerr : Nat) : List (Option (List EntrezRec)) → PageOutcome
  | [] => .starved
  | none :: rest => if nerr + 1 = 3 then .aborted else processPage (nerr + 1) rest
  | some recs :: _ => .ok recs

/-- `gi_df.iloc[i : i+chunk_size]` pagination with `chunk_size = 50`,
fuel-driven (the fuel is the list length). -/
def chunksAux (ids : List String) : Nat → List (List String)
  | 0 => []
  | fuel + 1 =>
    match ids with
    | [] => []
    | _ :: _ => ids.take 50 :: chunksAux (ids.drop 50) fuel

/-- The pages visited by `range(0, gi_df.shape[0], chunk_size)`. -/
def chunksOf (ids : List String) : List (List String) :=
  chunksAux ids ids.length

/-- The output row written for one Entrez record:
`f'{rec["Id"]}\t{rec["AccessionVersion"]}\t{rec["Title"]}\n'`. -/
def recRow (r : EntrezRec) : String × String × String :=
  (r.recId, r.accessionVersion, r.title)

/-- Process the pages in order, each page paired with its attempt outcomes.
Rows of a completed page are appended before the next page starts; a page that
exceeds the retry ceiling raises out of the `with` block, so the rows already
written stay in the file. -/
def runPages :
    List (List String × List (Option (List EntrezRec))) →
      List (String × String × String) × RunOutcome
  | [] => ([], .completed)
  | (_, attempts) :: rest =>
    match processPage 0 attempts with
    | .ok recs =>
      let r := runPages rest
      (recs.map recRow ++ r.1, r.2)
    | .aborted => ([], .aborted)
    | .starved => ([], .starved)

/-- The header line `refseq_id\tacc\ttitle` written before any page. -/
def gisHeaderRow : String × String × String := ("refseq_id", "acc", "title")

/-- Content of the output file of `gis_to_accs.py` (as a list of
tab-separated triples) together with how the run ended. -/
def gisToAccsFile
    (pages : List (List String × List (Option (List EntrezRec)))) :
    List (String × String × String) × RunOutcome :=
  (gisHeaderRow :: (runPages pages).1, (runPages pages).2)

/-! ### `merge_bases_categories_taxonomy.py` -/

/-- A keyed row of one of the merged tables: the `seqID` join key and the
remaining cells in column order. -/
structure TRow where
  key : String
  fields : List String
deriving DecidableEq, Repr

/-- Pandas `left.merge(right, on='seqID', how='left')`, with `to_csv`'s
`na_rep='NA'` rendering of the `NaN` cells of unmatched rows folded in:
each left row is emitted once per matching right row, or once with `NA` cells
when nothing matches.  `w` is the number of non-key columns of `right`. -/
def leftMerge (left right : List TRow) (w : Nat) : List TRow :=
  left.flatMap fun l =>
    match right.filter (fun r => r.key == l.key) with
    | [] => [⟨l.key, l.fields ++ List.replicate w "NA"⟩]
    | m :: ms => (m :: ms).map fun r => ⟨l.key, l.fields ++ r.fields⟩

/-- The merged dataframe of the script: bases left-merged with categories,
then with taxonomy. -/
def mergedDf (bases categories taxonomy : List TRow) (wc wt : Nat) :
    List TRow :=
  leftMerge (leftMerge bases categories wc) taxonomy wt

/-- The right-hand cells a base row picks up from a uniquely-keyed table. -/
def lookupFields (t : List TRow) (w : Nat) (k : String) : List String :=
  match t.filter (fun r => r.key == k) with
  | [] => List.replicate w "NA"
  | r :: _ => r.fields

/-! ### Concrete instances used by the claims -/

/-- A one-sequence genome record. -/
def mkRow (a l : Nat) (d : String) : GeneRow :=
  { ass_id := a, len := l, seqID := s!"seq{a}", title := s!"title{a}", domain := d }

/-- Claim C1's failing input: Bacteria has three genomes, Archaea a single one,
so with `top_num = 2` the Archaea boundary read `loc[1]` is past the end. -/
def cexC1 : List GeneRow :=
  [mkRow 1 30 "Bacteria", mkRow 2 20 "Bacteria", mkRow 3 10 "Bacteria",
   mkRow 9 77 "Archaea"]

/-- Claim C2's counterexample input: Archaea again has a single genome. -/
def cexC2 : List GeneRow :=
  [mkRow 1 40 "Bacteria", mkRow 2 30 "Bacteria", mkRow 3 20 "Bacteria",
   mkRow 8 55 "Archaea"]

/-- Claim C3's input: one domain's genomes have maximum gene lengths
`[100, 100, 90, 90, 80]`; the other domain is populated so that its own scan
terminates within bounds. -/
def cexC3 : List GeneRow :=
  [mkRow 1 100 "Bacteria", mkRow 2 100 "Bacteria", mkRow 3 90 "Bacteria",
   mkRow 4 90 "Bacteria", mkRow 5 80 "Bacteria",
   mkRow 6 50 "Archaea", mkRow 7 40 "Archaea", mkRow 8 30 "Archaea"]

/-- What `make_ribogrove_top_longest_df cexC3 2` returns: only the two
genomes of maximum length 100 for Bacteria (no genome of length 90), and the
top two Archaea genomes. -/
def cexC3Out : List TopRow :=
  [{ ass_id := 1, len := 100, seqID := ["seq1"], title := "title1", domain := "Bacteria" },
   { ass_id := 2, len := 100, seqID := ["seq2"], title := "title2", domain := "Bacteria" },
   { ass_id := 6, len := 50, seqID := ["seq6"], title := "title6", domain := "Archaea" },
   { ass_id := 7, len := 40, seqID := ["seq7"], title := "title7", domain := "Archaea" }]

/-- Claim C4's counterexample line: five single-word fields separated by single
spaces that happen to spell one of the substituted labels. -/
def cexC4Line : List Char := "Bacterial small subunit ribosomal RNA".toList

/-- Claim C6's counterexample line: the label's words separated by two spaces
after the first word. -/
def cexC6Line : List Char := "Bacterial  small subunit ribosomal RNA".toList

/-- A model-file path for the C7 witness. -/
def c7Rfam : List Char := "/data/rfam.cm".toList

/-- A failing `cmpress` invocation whose stderr matches the already-exists
pattern. -/
def c7AlreadyExists : ProcOut :=
  ⟨1, "Error: file /data/rfam.cm.i1m already exists".toList⟩

/-- A failing `cmpress` invocation with an unrelated diagnostic. -/
def c7OtherFailure : ProcOut := ⟨1, "Fatal exception: out of memory".toList⟩

/-- A successful `cmpress` invocation. -/
def c7Ok : ProcOut := ⟨0, []⟩

/-- Claim C9's counterexample: a categories table with a duplicated `seqID`. -/
def cexC9Bases : List TRow := [⟨"s1", ["10"]⟩]

/-- The duplicated-key categories table. -/
def cexC9Cats : List TRow := [⟨"s1", ["c1"]⟩, ⟨"s1", ["c2"]⟩]

/-- Input for the C2 witness: both domains have three genomes of pairwise
distinct maximum lengths. -/
def w2input : List GeneRow :=
  [mkRow 11 400 "Bacteria", mkRow 12 300 "Bacteria", mkRow 13 200 "Bacteria",
   mkRow 21 90 "Archaea", mkRow 22 80 "Archaea", mkRow 23 70 "Archaea"]

/-- The value `make_ribogrove_top_longest_df w2input 2` returns. -/
def w2out : List TopRow :=
  [{ ass_id := 11, len := 400, seqID := ["seq11"], title := "title11", domain := "Bacteria" },
   { ass_id := 12, len := 300, seqID := ["seq12"], title := "title12", domain := "Bacteria" },
   { ass_id := 21, len := 90, seqID := ["seq21"], title := "title21", domain := "Archaea" },
   { ass_id := 22, len := 80, seqID := ["seq22"], title := "title22", domain := "Archaea" }]

/-- An Entrez record used by the C8 witness. -/
def w8rec : EntrezRec := ⟨"1001", "NC_1.1", "some title"⟩

/-- A completed page (one successful attempt) used by the C8 witness. -/
def w8good : (List String × List (Option (List EntrezRec))) × List EntrezRec :=
  ((["1001"], [some [w8rec]]), [w8rec])

/-! ## Lemmas about the string primitives -/

theorem pyReplaceAux_congr (pat rep : List Char) (f₁ : Nat) :
    ∀ (f₂ : Nat) (s : List Char), s.length ≤ f₁ → s.length ≤ f₂ →
      pyReplaceAux pat rep f₁ s = pyReplaceAux pat rep f₂ s := by
  induction f₁ with
  | zero =>
    intro f₂ s h1 _
    have hs : s = [] := List.eq_nil_of_length_eq_zero (Nat.le_zero.mp h1)
    subst hs
    cases f₂ <;> rfl
  | succ f ih =>
    intro f₂ s h1 h2
    cases s with
    | nil => cases f₂ <;> rfl
    | cons a s =>
      cases f₂ with
      | zero => simp at h2
      | succ f₂ =>
        simp only [pyReplaceAux]
        by_cases hL : leadsWith pat (a :: s) = true
        · rw [if_pos hL, if_pos hL]
          have hd : (List.drop (pat.length - 1) s).length ≤ f := by
            simp only [List.length_drop]
            simp only [List.length_cons] at h1
            omega
          have hd₂ : (List.drop (pat.length - 1) s).length ≤ f₂ := by
            simp only [List.length_drop]
            simp only [List.length_cons] at h2
            omega
          rw [ih f₂ _ hd hd₂]
        · rw [if_neg hL, if_neg hL]
          have hs : s.length ≤ f := by simp only [List.length_cons] at h1; omega
          have hs₂ : s.length ≤ f₂ := by simp only [List.length_cons] at h2; omega
          rw [ih f₂ s hs hs₂]

theorem pyReplaceStr_nil (pat rep : List Char) :
    pyReplaceStr pat rep [] = [] := by
  cases pat <;> rfl

theorem pyReplaceStr_cons (c : Char) (cs rep : List Char) (a : Char)
    (s : List Char) :
    pyReplaceStr (c :: cs) rep (a :: s) =
      if leadsWith (c :: cs) (a :: s) then
        rep ++ pyReplaceStr (c :: cs) rep (List.drop ((c :: cs).length - 1) s)
      else
        a :: pyReplaceStr (c :: cs) rep s := by
  show pyReplaceAux (c :: cs) rep (s.length + 1) (a :: s) = _
  simp only [pyReplaceAux]
  by_cases hL : leadsWith (c :: cs) (a :: s) = true
  · rw [if_pos hL, if_pos hL]
    have : pyReplaceStr (c :: cs) rep (List.drop ((c :: cs).length - 1) s) =
        pyReplaceAux (c :: cs) rep (List.drop ((c :: cs).length - 1) s).length
          (List.drop ((c :: cs).length - 1) s) := rfl
    rw [this, pyReplaceAux_congr (c :: cs) rep s.length _ _
      (by simp [List.length_drop]) (Nat.le_refl _)]
  · rw [if_neg hL, if_neg hL]
    rfl

/-- If the pattern occurs nowhere in the string, `str.replace` is the
identity. -/
theorem pyReplaceStr_of_not_occur (pat rep : List Char) :
    ∀ s : List Char, hasOccur pat s = false → pyReplaceStr pat rep s = s := by
  intro s
  induction s with
  | nil => intro _; exact pyReplaceStr_nil pat rep
  | cons a s ih =>
    intro h
    cases pat with
    | nil => rfl
    | cons c cs =>
      simp only [hasOccur, Bool.or_eq_false_iff] at h
      rw [pyReplaceStr_cons, if_neg (by simp [h.1]), ih h.2]

/-- If the pattern occurs in a string, every pattern character occurs in the
string. -/
theorem mem_of_leadsWith (pat : List Char) :
    ∀ t : List Char, leadsWith pat t = true → ∀ c ∈ pat, c ∈ t := by
  induction pat with
  | nil => intro t _ c hc; simp at hc
  | cons p ps ih =>
    intro t h c hc
    cases t with
    | nil => simp [leadsWith] at h
    | cons b bs =>
      simp only [leadsWith, Bool.and_eq_true, beq_iff_eq] at h
      obtain ⟨hpb, hrest⟩ := h
      rcases List.mem_cons.mp hc with hc | hc
      · subst hc; subst hpb; exact List.mem_cons_self _ _
      · exact List.mem_cons_of_mem _ (ih bs hrest c hc)

theorem mem_of_hasOccur (pat : List Char) :
    ∀ s : List Char, hasOccur pat s = true → ∀ c ∈ pat, c ∈ s := by
  intro s
  induction s with
  | nil =>
    intro h c hc
    simp only [hasOccur, List.isEmpty_iff] at h
    subst h; simp at hc
  | cons a s ih =>
    intro h c hc
    simp only [hasOccur, Bool.or_eq_true] at h
    rcases h with h | h
    · exact mem_of_leadsWith pat (a :: s) h c hc
    · exact List.mem_cons_of_mem _ (ih h c hc)

/-- A pattern containing a character absent from the string cannot occur. -/
theorem hasOccur_eq_false_of_not_mem (pat s : List Char) (c : Char)
    (hc : c ∈ pat) (hs : c ∉ s) : hasOccur pat s = false := by
  cases h : hasOccur pat s
  · rfl
  · exact absurd (mem_of_hasOccur pat s h c hc) hs

theorem leadsWith_append (p : List Char) :
    ∀ (u v : List Char), leadsWith p u = true → leadsWith p (u ++ v) = true := by
  induction p with
  | nil => intro u v _; rfl
  | cons a as ih =>
    intro u v h
    cases u with
    | nil => simp [leadsWith] at h
    | cons b bs =>
      simp only [leadsWith, Bool.and_eq_true] at h ⊢
      exact ⟨h.1, ih bs v h.2⟩

theorem hasOccur_append_left (pat : List Char) :
    ∀ (u v : List Char), hasOccur pat u = true → hasOccur pat (u ++ v) = true := by
  intro u
  induction u with
  | nil =>
    intro v h
    simp only [hasOccur, List.isEmpty_iff] at h
    subst h
    cases v with
    | nil => rfl
    | cons b bs => simp [hasOccur, leadsWith]
  | cons a u ih =>
    intro v h
    simp only [hasOccur, Bool.or_eq_true] at h ⊢
    rcases h with h | h
    · exact Or.inl (leadsWith_append pat (a :: u) v h)
    · exact Or.inr (ih v h)

theorem hasOccur_append_right (pat : List Char) :
    ∀ (u v : List Char), hasOccur pat v = true → hasOccur pat (u ++ v) = true := by
  intro u
  induction u with
  | nil => intro v h; exact h
  | cons a u ih =>
    intro v h
    simp only [List.cons_append, hasOccur, Bool.or_eq_true]
    exact Or.inr (ih v h)

/-- Occurrence is monotone under passing to `pyStrip` in the contrapositive
direction: no occurrence in `s` means none in `pyStrip s`. -/
theorem hasOccur_pyStrip (pat s : List Char) (h : hasOccur pat s = false) :
    hasOccur pat (pyStrip s) = false := by
  cases hso : hasOccur pat (pyStrip s)
  · rfl
  · exfalso
    have h1 : hasOccur pat ((s.dropWhile isPyWs).reverse.dropWhile isPyWs).reverse
        = true := hso
    set t := s.dropWhile isPyWs with ht
    have hsplit : t.reverse = t.reverse.takeWhile isPyWs ++ t.reverse.dropWhile isPyWs :=
      (List.takeWhile_append_dropWhile isPyWs t.reverse).symm
    have ht2 : t = (t.reverse.dropWhile isPyWs).reverse ++
        (t.reverse.takeWhile isPyWs).reverse := by
      conv_lhs => rw [← List.reverse_reverse t, hsplit]
      rw [List.reverse_append]
    have h2 : hasOccur pat t = true := by
      rw [ht2]
      exact hasOccur_append_left pat _ _ h1
    have hsplit2 : s = s.takeWhile isPyWs ++ t :=
      (List.takeWhile_append_dropWhile isPyWs s).symm
    have h3 : hasOccur pat s = true := by
      rw [hsplit2]
      exact hasOccur_append_right pat _ _ h2
    rw [h3] at h
    exact Bool.true_eq_false.mp h

/-- The final pass of `reformat_tblout` is the character map sending a space
to a tab. -/
theorem spaceToTab_eq_map :
    ∀ s : List Char, spaceToTab s = s.map fun a => if a = ' ' then '\t' else a := by
  intro s
  induction s with
  | nil => exact pyReplaceStr_nil _ _
  | cons a s ih =>
    show pyReplaceStr [' '] ['\t'] (a :: s) = _
    rw [pyReplaceStr_cons]
    by_cases ha : a = ' '
    · subst ha
      rw [if_pos (by simp [leadsWith])]
      simp only [List.length_cons, List.length_nil, Nat.add_sub_cancel,
        List.drop_zero, List.map_cons, if_pos rfl]
      rw [← ih]
      rfl
    · have hneg : ¬leadsWith [' '] (a :: s) = true := by
        simp only [leadsWith, Bool.and_eq_true, beq_iff_eq, and_true]
        exact fun h => ha h.symm
      rw [if_neg hneg]
      simp only [List.map_cons, if_neg ha]
      rw [← ih]
      rfl

/-- No space character survives the final space-to-tab pass. -/
theorem space_not_mem_spaceToTab (s : List Char) : ' ' ∉ spaceToTab s := by
  rw [spaceToTab_eq_map]
  intro hmem
  rcases List.mem_map.mp hmem with ⟨a, _, ha⟩
  by_cases h : a = ' ' <;> simp [h] at ha

/-- One collapsing pass does nothing to a space-free string. -/
theorem collapsePass_of_no_space (s : List Char) (k : Nat) (h1 : 1 ≤ k)
    (h : ' ' ∉ s) : collapsePass s k = s := by
  show pyReplaceStr (spaces k) [' '] s = s
  exact pyReplaceStr_of_not_occur _ _ s
    (hasOccur_eq_false_of_not_mem _ s ' '
      (by simp only [spaces, List.mem_replicate]; exact ⟨by omega, trivial⟩) h)

/-- Folding collapse passes with positive run lengths over a space-free string
is the identity. -/
theorem foldl_collapsePass_of_no_space (s : List Char) (h : ' ' ∉ s) :
    ∀ ks : List Nat, (∀ k ∈ ks, 1 ≤ k) → ks.foldl collapsePass s = s := by
  intro ks
  induction ks with
  | nil => intro _; rfl
  | cons k ks ih =>
    intro hall
    rw [List.foldl_cons,
      collapsePass_of_no_space s k (hall k (List.mem_cons_self _ _)) h]
    exact ih fun k hk => hall k (List.mem_cons_of_mem _ hk)

/-- The whole collapsing loop does nothing to a space-free string. -/
theorem collapseSpaces_of_no_space (s : List Char) (h : ' ' ∉ s) :
    collapseSpaces s = s :=
  foldl_collapsePass_of_no_space s h collapseNums (by decide)

/-- Both label substitutions do nothing to a space-free string (each label
contains a space). -/
theorem substLabels_of_no_space (s : List Char) (h : ' ' ∉ s) :
    substLabels s = s := by
  show pyReplaceStr arcLabelSp arcLabelUnd (pyReplaceStr bacLabelSp bacLabelUnd s) = s
  rw [pyReplaceStr_of_not_occur _ _ s
      (hasOccur_eq_false_of_not_mem _ s ' ' (by decide) h),
    pyReplaceStr_of_not_occur _ _ s
      (hasOccur_eq_false_of_not_mem _ s ' ' (by decide) h)]

/-- The space-to-tab pass does nothing to a space-free string. -/
theorem spaceToTab_of_no_space (s : List Char) (h : ' ' ∉ s) :
    spaceToTab s = s := by
  show pyReplaceStr [' '] ['\t'] s = s
  exact pyReplaceStr_of_not_occur _ _ s
    (hasOccur_eq_false_of_not_mem _ s ' ' (by decide) h)

/-- `str.strip` does nothing to a string whose two end characters are not
whitespace. -/
theorem pyStrip_eq_self (s : List Char)
    (hh : ∀ c, s.head? = some c → isPyWs c = false)
    (hl : ∀ c, s.getLast? = some c → isPyWs c = false) : pyStrip s = s := by
  have hfront : s.dropWhile isPyWs = s := by
    cases s with
    | nil => rfl
    | cons a s =>
      rw [List.dropWhile_cons, if_neg (by simp [hh a rfl])]
  show ((s.dropWhile isPyWs).reverse.dropWhile isPyWs).reverse = s
  rw [hfront]
  have hback : s.reverse.dropWhile isPyWs = s.reverse := by
    cases hr : s.reverse with
    | nil => rfl
    | cons a t =>
      rw [List.dropWhile_cons, if_neg ?_]
      have : s.getLast? = some a := by
        rw [← List.head?_reverse, hr]; rfl
      simp [hl a this]
  rw [hback, List.reverse_reverse]

theorem reformat_tblout_unfold (lines : List (List Char)) (header : List Char) :
    reformat_tblout lines header =
      header ::
        ((((lines.filter keepLine).map pyStrip).map collapseSpaces).map
          substLabels).map spaceToTab := rfl

theorem processLine_apply (x : List Char) :
    spaceToTab (substLabels (collapseSpaces (pyStrip x))) = processLine x := rfl

/-- The four in-place passes of the source fuse into one per-line pipeline. -/
theorem reformat_tblout_eq_map (lines : List (List Char)) (header : List Char) :
    reformat_tblout lines header =
      header :: (lines.filter keepLine).map processLine := by
  rw [reformat_tblout_unfold]
  refine congrArg (List.cons header) ?_
  generalize lines.filter keepLine = L
  induction L with
  | nil => simp only [List.map_nil]
  | cons a t ih =>
    simp only [List.map_cons]
    rw [processLine_apply, ih]

/-! ## Claim C10 -/

/-- Claim C10: for every input file, `reformat_tblout` emits the header
followed by the processed non-comment lines in order (one output data line per
kept input line), and no output data line contains a space character. -/
theorem c10_output_tab_only (lines : List (List Char)) (header : List Char) :
    reformat_tblout lines header =
      header :: (lines.filter keepLine).map processLine ∧
    ∀ l ∈ (lines.filter keepLine).map processLine, ' ' ∉ l := by
  constructor
  · exact reformat_tblout_eq_map lines header
  · intro l hl
    rcases List.mem_map.mp hl with ⟨x, _, hx⟩
    rw [← hx]
    exact space_not_mem_spaceToTab _

/-- Witness for C10 at a concrete two-field line. -/
theorem c10_witness :
    (reformat_tblout ["ab  cd".toList] "H".toList =
      "H".toList :: ((["ab  cd".toList].filter keepLine).map processLine) ∧
      ' ' ∉ processLine ("ab  cd".toList)) := by
  refine ⟨(c10_output_tab_only ["ab  cd".toList] "H".toList).1, ?_⟩
  refine (c10_output_tab_only ["ab  cd".toList] "H".toList).2 _ ?_
  have hf : (["ab  cd".toList].filter keepLine) = ["ab  cd".toList] := by decide
  rw [hf]
  exact List.mem_map_of_mem processLine (List.mem_singleton.mpr rfl)

/-! ## Claim C1 -/

/-- Claim C1 (code bug): on a table whose Archaea domain holds a single genome
(fewer than `top_num + 1 = 3`), `make_ribogrove_top_longest_df` does not return
the available genomes — the boundary tie-check `loc[top_genome_counter + 1]`
reads past the end of the per-domain genome list and the call fails (`none`
models the pandas `KeyError`). -/
theorem c1_boundary_read_fails :
    make_ribogrove_top_longest_df cexC1 2 = none ∧
    ((cexC1.filter (fun r => r.domain == "Archaea")).map
      (fun r => r.ass_id)).length = 1 := by
  constructor <;> decide

/-! ## Claim C3 -/

/-- Counterexample to claim C3: with per-genome maximum lengths
`[100, 100, 90, 90, 80]` in one domain and `N = 2`, the selector returns only
the two genomes of length 100 for that domain — no genome of maximum length 90
is included, contrary to the claim that all genomes with length ≥ 90 appear. -/
theorem c3_counterexample :
    make_ribogrove_top_longest_df cexC3 2 = some cexC3Out ∧
    cexC3Out.filter (fun r => r.len == 90) = [] := by
  constructor <;> decide

/-- Claim C3 as amended: for that input and `N = 2` the selection for the
`[100, 100, 90, 90, 80]` domain consists of exactly the two genomes of maximum
length 100; the third genome (length 90) is excluded because it does not tie
the second one's length 100, so no boundary tie extension fires. -/
theorem c3_amended_top2_only :
    (make_ribogrove_top_longest_df cexC3 2).map
        (fun rows => (rows.filter (fun r => r.domain == "Bacteria")).map
          (fun r => (r.ass_id, r.len))) =
      some [(1, 100), (2, 100)] := by
  decide

/-! ## Claim C7 -/

/-- Claim C7: when a `cmpress` invocation fails, `run_cmpress` matches the
stderr text against the already-exists pattern; on a match it deletes the
captured index-file path and performs exactly one further `run_cmpress` pass
over the remaining invocations (one retry per matching failure), propagating
that pass's outcome; on no match it stops immediately with `sys.exit(1)` and
deletes nothing. -/
theorem c7_cmpress_retry_or_fatal (rfam : List Char) (p : ProcOut)
    (rest : List ProcOut) (hfail : p.code ≠ 0) :
    (∀ path, alreadyExistsSearch rfam p.err = some path →
      run_cmpress rfam (p :: rest) =
        ⟨(run_cmpress rfam rest).invocations + 1,
          path :: (run_cmpress rfam rest).deleted,
          (run_cmpress rfam rest).outcome⟩) ∧
    (alreadyExistsSearch rfam p.err = none →
      run_cmpress rfam (p :: rest) = ⟨1, [], CmpressOutcome.fatalExit⟩) := by
  constructor
  · intro path hsearch
    simp only [run_cmpress, if_pos hfail, hsearch]
  · intro hsearch
    simp only [run_cmpress, if_pos hfail, hsearch]

/-- Witness for C7: a matching already-exists failure retries once and
succeeds after deleting the reported `.i1m` file; an unrelated failure is
fatal. -/
theorem c7_witness :
    run_cmpress c7Rfam [c7AlreadyExists, c7Ok] =
      ⟨(run_cmpress c7Rfam [c7Ok]).invocations + 1,
        "/data/rfam.cm.i1m".toList :: (run_cmpress c7Rfam [c7Ok]).deleted,
        (run_cmpress c7Rfam [c7Ok]).outcome⟩ ∧
    run_cmpress c7Rfam [c7OtherFailure] = ⟨1, [], CmpressOutcome.fatalExit⟩ :=
  ⟨(c7_cmpress_retry_or_fatal c7Rfam c7AlreadyExists [c7Ok] (by decide)).1
      ("/data/rfam.cm.i1m".toList) (by decide),
   (c7_cmpress_retry_or_fatal c7Rfam c7OtherFailure [] (by decide)).2
      (by decide)⟩

/-! ## Claim C8 -/

theorem chunksAux_getElem (i : Nat) :
    ∀ (fuel : Nat) (ids : List String), ids.length ≤ fuel → 50 * i < ids.length →
      (chunksAux ids fuel)[i]? = some ((ids.drop (50 * i)).take 50) := by
  induction i with
  | zero =>
    intro fuel ids hfuel hlen
    cases fuel with
    | zero => omega
    | succ fuel =>
      cases ids with
      | nil => simp at hlen
      | cons a t =>
        simp only [chunksAux, Nat.mul_zero, List.drop_zero]
        simp
  | succ i ih =>
    intro fuel ids hfuel hlen
    cases fuel with
    | zero => omega
    | succ fuel =>
      cases ids with
      | nil => simp at hlen
      | cons a t =>
        simp only [chunksAux]
        have h1 : (chunksAux ((a :: t).drop 50) fuel)[i]? =
            some ((((a :: t).drop 50).drop (50 * i)).take 50) := by
          refine ih fuel _ ?_ ?_
          · simp only [List.length_drop, List.length_cons] at hfuel ⊢
            omega
          · simp only [List.length_drop, List.length_cons] at hlen ⊢
            omega
        rw [List.getElem?_cons_succ, h1, List.drop_drop]
        have h2 : 50 + 50 * i = 50 * (i + 1) := by ring
        rw [h2]

/-- The pages of the chunk loop are the consecutive 50-element slices of the
identifier list. -/
theorem chunksOf_getElem (ids : List String) (i : Nat) (h : 50 * i < ids.length) :
    (chunksOf ids)[i]? = some ((ids.drop (50 * i)).take 50) :=
  chunksAux_getElem i ids.length ids (Nat.le_refl _) h

/-- A page whose first success comes after fewer than three failures
completes with that success's records. -/
theorem processPage_ok (m : Nat) (hm : m < 3) (r : List EntrezRec)
    (more : List (Option (List EntrezRec))) :
    processPage 0 (List.replicate m none ++ some r :: more) = PageOutcome.ok r := by
  interval_cases m <;> rfl

/-- Three consecutive failures abort the page (and hence the run). -/
theorem processPage_three_failures (more : List (Option (List EntrezRec))) :
    processPage 0 (none :: none :: none :: more) = PageOutcome.aborted := rfl

theorem runPages_good_then_aborted
    (goodPages :
      List ((List String × List (Option (List EntrezRec))) × List EntrezRec))
    (badGis : List String) (badAttempts : List (Option (List EntrezRec)))
    (rest : List (List String × List (Option (List EntrezRec))))
    (hgood : ∀ p ∈ goodPages, processPage 0 p.1.2 = PageOutcome.ok p.2)
    (hbad : processPage 0 badAttempts = PageOutcome.aborted) :
    runPages (goodPages.map Prod.fst ++ (badGis, badAttempts) :: rest) =
      (goodPages.flatMap (fun p => p.2.map recRow), RunOutcome.aborted) := by
  induction goodPages with
  | nil =>
    simp only [List.map_nil, List.nil_append, List.flatMap_nil]
    simp only [runPages, hbad]
  | cons p gps ih =>
    obtain ⟨⟨gis, atts⟩, recs⟩ := p
    have hp : processPage 0 atts = PageOutcome.ok recs :=
      hgood _ (List.mem_cons_self _ _)
    have hrest : ∀ q ∈ gps, processPage 0 q.1.2 = PageOutcome.ok q.2 :=
      fun q hq => hgood q (List.mem_cons_of_mem _ hq)
    simp only [List.map_cons, List.cons_append, List.flatMap_cons]
    simp only [runPages, hp, ih hrest]

/-- Claim C8: identifiers are processed in 50-element pages; a page succeeds
with the records of its first successful attempt when fewer than three
failures precede it and aborts the run at the third consecutive failure; and
when a later page aborts, the output file still holds the fixed header
followed by exactly the rows of the pages completed before it, in order. -/
theorem c8_pages_retry_durability (ids : List String) (i : Nat) :
    (50 * i < ids.length →
      (chunksOf ids)[i]? = some ((ids.drop (50 * i)).take 50)) ∧
    (∀ (m : Nat) (r : List EntrezRec) (more : List (Option (List EntrezRec))),
      m < 3 →
      processPage 0 (List.replicate m none ++ some r :: more) =
        PageOutcome.ok r) ∧
    (∀ more : List (Option (List EntrezRec)),
      processPage 0 (none :: none :: none :: more) = PageOutcome.aborted) ∧
    (∀ (goodPages :
        List ((List String × List (Option (List EntrezRec))) × List EntrezRec))
      (badGis : List String) (badAttempts : List (Option (List EntrezRec)))
      (rest : List (List String × List (Option (List EntrezRec)))),
      (∀ p ∈ goodPages, processPage 0 p.1.2 = PageOutcome.ok p.2) →
      processPage 0 badAttempts = PageOutcome.aborted →
      gisToAccsFile (goodPages.map Prod.fst ++ (badGis, badAttempts) :: rest) =
        (gisHeaderRow :: goodPages.flatMap (fun p => p.2.map recRow),
          RunOutcome.aborted)) := by
  refine ⟨chunksOf_getElem ids i, fun m r more hm => processPage_ok m hm r more,
    processPage_three_failures, ?_⟩
  intro goodPages badGis badAttempts rest hgood hbad
  show (gisHeaderRow :: (runPages _).1, (runPages _).2) = _
  rw [runPages_good_then_aborted goodPages badGis badAttempts rest hgood hbad]

/-- Witness for C8: one completed page followed by a page of three failures;
the file keeps the header and the completed page's row. -/
theorem c8_witness :
    ((chunksOf ["a", "b", "c"])[0]? =
      some (((["a", "b", "c"] : List String).drop (50 * 0)).take 50)) ∧
    processPage 0 (List.replicate 1 none ++ some [w8rec] :: []) =
      PageOutcome.ok [w8rec] ∧
    processPage 0 (none :: none :: none :: []) = PageOutcome.aborted ∧
    gisToAccsFile ([w8good].map Prod.fst ++ (["9"], [none, none, none]) :: []) =
      (gisHeaderRow :: [w8good].flatMap (fun p => p.2.map recRow),
        RunOutcome.aborted) := by
  have h := c8_pages_retry_durability ["a", "b", "c"] 0
  exact ⟨h.1 (by decide), h.2.1 1 [w8rec] [] (by decide), h.2.2.1 [],
    h.2.2.2 [w8good] ["9"] [none, none, none] [] (by decide) (by decide)⟩

/-! ## Claim C9 -/

/-- With pairwise-distinct keys on the right table, at most one right row
matches any key. -/
theorem filter_key_le_one (t : List TRow) (hnd : (t.map TRow.key).Nodup)
    (k : String) : (t.filter (fun r => r.key == k)).length ≤ 1 := by
  induction t with
  | nil => simp
  | cons r t ih =>
    simp only [List.map_cons, List.nodup_cons] at hnd
    simp only [List.filter_cons]
    cases hk : (r.key == k) with
    | false =>
      simp only [Bool.false_eq_true, if_false]
      exact ih hnd.2
    | true =>
      simp only [if_true]
      have hnone : t.filter (fun r => r.key == k) = [] := by
        rw [List.filter_eq_nil_iff]
        intro x hx hxk
        exact hnd.1 (by
          rw [← (beq_iff_eq.mp hxk).trans (beq_iff_eq.mp hk).symm]
          exact List.mem_map_of_mem TRow.key hx)
      rw [hnone]
      simp

/-- A left merge against a uniquely-keyed right table emits each left row
exactly once, extended by the matching right cells or by `NA`s. -/
theorem leftMerge_nodup (left right : List TRow) (w : Nat)
    (hnd : (right.map TRow.key).Nodup) :
    leftMerge left right w =
      left.map fun l => ⟨l.key, l.fields ++ lookupFields right w l.key⟩ := by
  induction left with
  | nil => rfl
  | cons l ls ih =>
    show (match right.filter (fun r => r.key == l.key) with
        | [] => [⟨l.key, l.fields ++ List.replicate w "NA"⟩]
        | m :: ms => (m :: ms).map fun r => ⟨l.key, l.fields ++ r.fields⟩) ++
        leftMerge ls right w = _
    rw [ih]
    have hle := filter_key_le_one right hnd l.key
    cases hf : right.filter (fun r => r.key == l.key) with
    | nil =>
      simp only [List.map_cons, List.singleton_append, lookupFields, hf]
    | cons m ms =>
      have hms : ms = [] := by
        rw [hf] at hle
        simp only [List.length_cons] at hle
        exact List.eq_nil_of_length_eq_zero (by omega)
      subst hms
      simp only [List.map_cons, List.map_nil, List.singleton_append,
        lookupFields, hf]

/-- Counterexample to claim C9 as stated for *every* input: a duplicated
`seqID` in the categories table duplicates the base row (pandas left merge
emits one row per matching right row), so a one-row base table yields two
output rows. -/
theorem c9_counterexample :
    (mergedDf cexC9Bases cexC9Cats [] 1 2).length = 2 ∧
    cexC9Bases.length = 1 := by
  constructor <;> decide

/-- Claim C9 as amended: when the categories and taxonomy tables carry at most
one row per `seqID` (their join keys are pairwise distinct), the merge is a
left join on `seqID` in which every base row appears exactly once, in order,
and the category/taxonomy cells of an unmatched base row are all `NA`. -/
theorem c9_left_join_unique_keys (bases categories taxonomy : List TRow)
    (wc wt : Nat) (hc : (categories.map TRow.key).Nodup)
    (ht : (taxonomy.map TRow.key).Nodup) :
    mergedDf bases categories taxonomy wc wt =
      bases.map fun b =>
        ⟨b.key, (b.fields ++ lookupFields categories wc b.key) ++
          lookupFields taxonomy wt b.key⟩ := by
  show leftMerge (leftMerge bases categories wc) taxonomy wt = _
  rw [leftMerge_nodup bases categories wc hc,
    leftMerge_nodup _ taxonomy wt ht, List.map_map]
  rfl

/-- Witness for C9 on concrete uniquely-keyed tables: the matched base row
picks up its category cell, the unmatched one is filled with `NA`. -/
theorem c9_witness :
    mergedDf [⟨"s1", ["9"]⟩, ⟨"s2", ["8"]⟩] [⟨"s1", ["cat1"]⟩] [] 1 2 =
      [⟨"s1", ["9", "cat1", "NA", "NA"]⟩, ⟨"s2", ["8", "NA", "NA", "NA"]⟩] := by
  have h := c9_left_join_unique_keys [⟨"s1", ["9"]⟩, ⟨"s2", ["8"]⟩]
    [⟨"s1", ["cat1"]⟩] [] 1 2 (by decide) (by decide)
  rw [h]
  decide

/-! ## Lemmas on conforming lines (claims C4, C5, C6) -/

/-- `str.replace` passes over a block of characters that cannot start a
match of the pattern. -/
theorem pyReplaceStr_append_no_head (c : Char) (cs rep : List Char) :
    ∀ (w t : List Char), (∀ a ∈ w, a ≠ c) →
      pyReplaceStr (c :: cs) rep (w ++ t) = w ++ pyReplaceStr (c :: cs) rep t := by
  intro w
  induction w with
  | nil => intro t _; rfl
  | cons a w ih =>
    intro t hw
    have ha : a ≠ c := hw a (List.mem_cons_self _ _)
    rw [List.cons_append, pyReplaceStr_cons,
      if_neg (by
        simp only [leadsWith, Bool.and_eq_true, beq_iff_eq]
        exact fun h => ha h.1.symm),
      ih t fun b hb => hw b (List.mem_cons_of_mem _ hb), List.cons_append]

theorem leadsWith_spaces_le (k : Nat) :
    ∀ (g : Nat) (r : List Char), k ≤ g →
      leadsWith (spaces k) (spaces g ++ r) = true := by
  induction k with
  | zero => intro g r _; rfl
  | succ k ih =>
    intro g r hkg
    cases g with
    | zero => omega
    | succ g =>
      show leadsWith (' ' :: spaces k) (' ' :: (spaces g ++ r)) = true
      simp only [leadsWith, Bool.and_eq_true, beq_self_eq_true, true_and]
      exact ih g r (Nat.succ_le_succ_iff.mp hkg)

theorem leadsWith_spaces_gt (k : Nat) :
    ∀ (g : Nat) (r : List Char), g < k →
      (∀ b rs, r = b :: rs → b ≠ ' ') →
      leadsWith (spaces k) (spaces g ++ r) = false := by
  intro g
  induction g generalizing k with
  | zero =>
    intro r hk hr
    cases k with
    | zero => omega
    | succ k =>
      show leadsWith (' ' :: spaces k) r = false
      cases r with
      | nil => rfl
      | cons b rs =>
        simp only [leadsWith, Bool.and_eq_false_iff]
        left
        simpa using (hr b rs rfl ·.symm)
  | succ g ih =>
    intro r hk hr
    cases k with
    | zero => omega
    | succ k =>
      show leadsWith (' ' :: spaces k) (' ' :: (spaces g ++ r)) = false
      simp only [leadsWith, Bool.and_eq_false_iff]
      right
      exact ih k r (by omega) hr

theorem drop_spaces_append (n : Nat) :
    ∀ (g : Nat) (r : List Char), n ≤ g →
      List.drop n (spaces g ++ r) = spaces (g - n) ++ r := by
  induction n with
  | zero => intro g r _; rfl
  | succ n ih =>
    intro g r hng
    cases g with
    | zero => omega
    | succ g =>
      show List.drop (n + 1) (' ' :: (spaces g ++ r)) = _
      rw [List.drop_succ_cons, ih g r (Nat.succ_le_succ_iff.mp hng)]
      have h2 : g + 1 - (n + 1) = g - n := by omega
      rw [h2]

theorem gapStepAux_congr (k : Nat) (f₁ : Nat) :
    ∀ (f₂ g : Nat), g ≤ f₁ → g ≤ f₂ → gapStepAux k f₁ g = gapStepAux k f₂ g := by
  induction f₁ with
  | zero =>
    intro f₂ g h1 _
    have hg : g = 0 := Nat.le_zero.mp h1
    subst hg
    cases f₂ with
    | zero => rfl
    | succ f₂ =>
      simp only [gapStepAux]
      rw [if_neg (by omega)]
  | succ f ih =>
    intro f₂ g h1 h2
    cases f₂ with
    | zero =>
      have hg : g = 0 := Nat.le_zero.mp h2
      subst hg
      simp only [gapStepAux]
      rw [if_neg (by omega)]
    | succ f₂ =>
      simp only [gapStepAux]
      by_cases hc : 1 ≤ k ∧ k ≤ g
      · rw [if_pos hc, if_pos hc, ih f₂ (g - k) (by omega) (by omega)]
      · rw [if_neg hc, if_neg hc]

theorem gapStep_unfold (k g : Nat) :
    gapStep k g = if 1 ≤ k ∧ k ≤ g then 1 + gapStep k (g - k) else g := by
  show gapStepAux k g g = _
  cases g with
  | zero =>
    rw [if_neg (by omega)]
    rfl
  | succ g =>
    simp only [gapStepAux]
    by_cases hc : 1 ≤ k ∧ k ≤ g + 1
    · rw [if_pos hc, if_pos hc,
        gapStepAux_congr k g (g + 1 - k) (g + 1 - k) (by omega) (Nat.le_refl _)]
      rfl
    · rw [if_neg hc, if_neg hc]

theorem gapStep_of_lt (k g : Nat) (h : g < k) : gapStep k g = g := by
  rw [gapStep_unfold, if_neg (by omega)]

theorem spaces_succ (m : Nat) : spaces (m + 1) = ' ' :: spaces m := rfl

/-- One collapsing pass passes over a delimited run of spaces shorter than the
pattern. -/
theorem collapse_gap_lt (k' : Nat) :
    ∀ (g : Nat) (r : List Char), g < k' + 1 →
      (∀ b rs, r = b :: rs → b ≠ ' ') →
      pyReplaceStr (spaces (k' + 1)) [' '] (spaces g ++ r) =
        spaces g ++ pyReplaceStr (spaces (k' + 1)) [' '] r := by
  intro g
  induction g with
  | zero => intro r _ _; rfl
  | succ g ih =>
    intro r hg hr
    rw [spaces_succ g, List.cons_append, spaces_succ k', pyReplaceStr_cons,
      if_neg (by
        simp only [Bool.not_eq_true]
        have h := leadsWith_spaces_gt (k' + 1) (g + 1) r hg hr
        exact h)]
    have hrec : pyReplaceStr (' ' :: spaces k') [' '] (spaces g ++ r) =
        spaces g ++ pyReplaceStr (' ' :: spaces k') [' '] r :=
      ih r (by omega) hr
    rw [hrec, List.cons_append]

/-- One collapsing pass maps a delimited run of `g` spaces to a run of
`gapStep k g` spaces and continues after it (fuel-bounded recursion on the run
length). -/
theorem collapse_gap (k' : Nat) :
    ∀ (n g : Nat) (r : List Char), g ≤ n →
      (∀ b rs, r = b :: rs → b ≠ ' ') →
      pyReplaceStr (spaces (k' + 1)) [' '] (spaces g ++ r) =
        spaces (gapStep (k' + 1) g) ++ pyReplaceStr (spaces (k' + 1)) [' '] r := by
  intro n
  induction n with
  | zero =>
    intro g r hg _
    have hg0 : g = 0 := Nat.le_zero.mp hg
    subst hg0
    rw [gapStep_of_lt _ 0 (by omega)]
    rfl
  | succ n ih =>
    intro g r hg hr
    by_cases hkg : k' + 1 ≤ g
    · obtain ⟨g', rfl⟩ : ∃ g', g = g' + 1 := ⟨g - 1, by omega⟩
      rw [spaces_succ g', List.cons_append, spaces_succ k', pyReplaceStr_cons,
        if_pos (by
          have h := leadsWith_spaces_le (k' + 1) (g' + 1) r hkg
          show leadsWith (' ' :: spaces k') (' ' :: (spaces g' ++ r)) = true
          exact h)]
      have hlen : (' ' :: spaces k').length - 1 = k' := by
        simp [spaces]
      rw [hlen]
      have hdrop : List.drop k' (spaces g' ++ r) = spaces (g' - k') ++ r := by
        have h := drop_spaces_append k' g' r (by omega)
        exact h
      rw [hdrop]
      have hrec : pyReplaceStr (' ' :: spaces k') [' '] (spaces (g' - k') ++ r) =
          spaces (gapStep (k' + 1) (g' - k')) ++
            pyReplaceStr (' ' :: spaces k') [' '] r :=
        ih (g' - k') r (by omega) hr
      rw [hrec]
      have hgs : gapStep (k' + 1) (g' + 1) = gapStep (k' + 1) (g' - k') + 1 := by
        rw [gapStep_unfold, if_pos ⟨by omega, hkg⟩]
        have he : g' + 1 - (k' + 1) = g' - k' := by omega
        rw [he]
        omega
      rw [hgs, spaces_succ, List.cons_append]
      rfl
    · rw [gapStep_of_lt _ g (by omega)]
      exact collapse_gap_lt k' g r (by omega) hr

theorem ne_space_of_not_ws (a : Char) (h : isPyWs a = false) : a ≠ ' ' := by
  intro he
  subst he
  simp [isPyWs] at h

theorem map_id_fun {α : Type} : ∀ l : List α, (l.map fun a => a) = l := by
  intro l
  induction l with
  | nil => rfl
  | cons a t ih => rw [List.map_cons, ih]

theorem getLast?_mem_of {α : Type} :
    ∀ (l : List α) (c : α), l.getLast? = some c → c ∈ l := by
  intro l
  induction l with
  | nil => intro c h; simp at h
  | cons a l ih =>
    intro c h
    cases l with
    | nil =>
      simp only [List.getLast?_singleton, Option.some_inj] at h
      subst h
      exact List.mem_cons_self _ _
    | cons b l' =>
      rw [List.getLast?_cons_cons] at h
      exact List.mem_cons_of_mem _ (ih c h)

theorem getLast?_append_of_ne_nil {α : Type} (l l' : List α) (h : l' ≠ []) :
    (l ++ l').getLast? = l'.getLast? := by
  rw [List.getLast?_append]
  cases hgl : l'.getLast? with
  | none =>
    exact absurd (List.getLast?_isSome.mpr h) (by simp [hgl])
  | some x => rfl

/-- One collapsing pass distributes over the word/gap structure of a
conforming line tail, acting on each gap independently. -/
theorem renderTail_collapsePass (k' : Nat) :
    ∀ rest : List (Nat × List Char), (∀ p ∈ rest, goodWord p.2) →
      pyReplaceStr (spaces (k' + 1)) [' '] (renderTail rest) =
        renderTail (rest.map fun p => (gapStep (k' + 1) p.1, p.2)) := by
  intro rest
  induction rest with
  | nil => intro _; exact pyReplaceStr_nil _ _
  | cons p rest ih =>
    intro hgood
    obtain ⟨g, w⟩ := p
    obtain ⟨hwne, hwc⟩ := hgood (g, w) (List.mem_cons_self _ _)
    have hne : ∀ a ∈ w, a ≠ ' ' := fun a ha => ne_space_of_not_ws a (hwc a ha)
    cases w with
    | nil => exact absurd rfl hwne
    | cons b w' =>
    have hhead : ∀ c cs, (b :: w') ++ renderTail rest = c :: cs → c ≠ ' ' := by
      intro c cs hc
      have hcb : c = b := by
        have h2 := congrArg List.head? hc
        simpa using h2.symm
      rw [hcb]
      exact hne b (List.mem_cons_self _ _)
    have hstep : pyReplaceStr (spaces (k' + 1)) [' ']
        (spaces g ++ ((b :: w') ++ renderTail rest)) =
        spaces (gapStep (k' + 1) g) ++
          ((b :: w') ++
            renderTail (rest.map fun p => (gapStep (k' + 1) p.1, p.2))) := by
      rw [collapse_gap k' g g ((b :: w') ++ renderTail rest) (Nat.le_refl _)
        hhead]
      have happ : pyReplaceStr (spaces (k' + 1)) [' ']
          ((b :: w') ++ renderTail rest) =
          (b :: w') ++ pyReplaceStr (spaces (k' + 1)) [' '] (renderTail rest) :=
        pyReplaceStr_append_no_head ' ' (spaces k') [' '] (b :: w')
          (renderTail rest) hne
      rw [happ, ih fun q hq => hgood q (List.mem_cons_of_mem _ hq)]
    show pyReplaceStr (spaces (k' + 1)) [' ']
        ((spaces g ++ (b :: w')) ++ renderTail rest) =
      (spaces (gapStep (k' + 1) g) ++ (b :: w')) ++
        renderTail (rest.map fun p => (gapStep (k' + 1) p.1, p.2))
    rw [List.append_assoc, List.append_assoc]
    exact hstep

/-- Bookkeeping for the whole collapsing loop over a conforming line. -/
theorem renderLine_foldPasses (ks : List Nat) :
    ∀ (w0 : List Char) (rest : List (Nat × List Char)), (∀ k ∈ ks, 1 ≤ k) →
      goodWord w0 → (∀ p ∈ rest, goodWord p.2) →
      ks.foldl collapsePass (renderLine w0 rest) =
        renderLine w0
          (rest.map fun p => (ks.foldl (fun g k => gapStep k g) p.1, p.2)) := by
  induction ks with
  | nil =>
    intro w0 rest _ _ _
    simp only [List.foldl_nil]
    show renderLine w0 rest = renderLine w0 (rest.map fun p => (p.1, p.2))
    rw [List.map_congr_left fun (p : Nat × List Char) _ => Prod.mk.eta,
      map_id_fun]
  | cons k ks ih =>
    intro w0 rest hks h0 hrest
    obtain ⟨k', rfl⟩ : ∃ k', k = k' + 1 :=
      ⟨k - 1, by have := hks k (List.mem_cons_self _ _); omega⟩
    rw [List.foldl_cons]
    have hpass : collapsePass (renderLine w0 rest) (k' + 1) =
        renderLine w0 (rest.map fun p => (gapStep (k' + 1) p.1, p.2)) := by
      show pyReplaceStr (spaces (k' + 1)) [' '] (w0 ++ renderTail rest) = _
      have h0ne : ∀ a ∈ w0, a ≠ ' ' :=
        fun a ha => ne_space_of_not_ws a (h0.2 a ha)
      have happ : pyReplaceStr (spaces (k' + 1)) [' '] (w0 ++ renderTail rest) =
          w0 ++ pyReplaceStr (spaces (k' + 1)) [' '] (renderTail rest) :=
        pyReplaceStr_append_no_head ' ' (spaces k') [' '] w0 (renderTail rest)
          h0ne
      rw [happ, renderTail_collapsePass k' rest hrest]
      rfl
    rw [hpass, ih w0 _ (fun q hq => hks q (List.mem_cons_of_mem _ hq)) h0
      (by
        intro p hp
        rcases List.mem_map.mp hp with ⟨q, hq, rfl⟩
        exact hrest q hq),
      List.map_map]
    exact congrArg (renderLine w0) (List.map_congr_left fun p _ => rfl)

/-- The full collapsing loop of `reformat_tblout` on a conforming line. -/
theorem collapseSpaces_renderLine (w0 : List Char)
    (rest : List (Nat × List Char)) (h0 : goodWord w0)
    (hrest : ∀ p ∈ rest, goodWord p.2) :
    collapseSpaces (renderLine w0 rest) =
      renderLine w0 (rest.map fun p => (foldPasses p.1, p.2)) :=
  renderLine_foldPasses collapseNums w0 rest (by decide) h0 hrest

/-- Every gap length between 1 and 19 collapses to a single space under the
pass sequence `20, 19, …, 2`. -/
theorem foldPasses_one (g : Nat) (h1 : 1 ≤ g) (h19 : g ≤ 19) :
    foldPasses g = 1 := by
  have hall : ∀ g ∈ List.range 20, 1 ≤ g → foldPasses g = 1 := by decide
  exact hall g (List.mem_range.mpr (by omega)) h1

theorem renderTail_getLast_not_ws :
    ∀ rest : List (Nat × List Char), (∀ p ∈ rest, goodWord p.2) →
      ∀ c, (renderTail rest).getLast? = some c → isPyWs c = false := by
  intro rest
  induction rest with
  | nil => intro _ c h; simp [renderTail] at h
  | cons p rest ih =>
    intro hgood c h
    obtain ⟨g, w⟩ := p
    obtain ⟨hwne, hwc⟩ := hgood (g, w) (List.mem_cons_self _ _)
    show isPyWs c = false
    by_cases hrt : renderTail rest = []
    · rw [show renderTail ((g, w) :: rest) = spaces g ++ w ++ renderTail rest
        from rfl, hrt, List.append_nil,
        getLast?_append_of_ne_nil (spaces g) w hwne] at h
      exact hwc c (getLast?_mem_of w c h)
    · rw [show renderTail ((g, w) :: rest) = spaces g ++ w ++ renderTail rest
        from rfl,
        getLast?_append_of_ne_nil (spaces g ++ w) _ hrt] at h
      exact ih (fun q hq => hgood q (List.mem_cons_of_mem _ hq)) c h

theorem renderLine_getLast_not_ws (w0 : List Char)
    (rest : List (Nat × List Char)) (h0 : goodWord w0)
    (hrest : ∀ p ∈ rest, goodWord p.2) :
    ∀ c, (renderLine w0 rest).getLast? = some c → isPyWs c = false := by
  intro c h
  by_cases hrt : renderTail rest = []
  · rw [show renderLine w0 rest = w0 ++ renderTail rest from rfl, hrt,
      List.append_nil] at h
    exact h0.2 c (getLast?_mem_of w0 c h)
  · rw [show renderLine w0 rest = w0 ++ renderTail rest from rfl,
      getLast?_append_of_ne_nil w0 _ hrt] at h
    exact renderTail_getLast_not_ws rest hrest c h

theorem renderLine_head (b : Char) (w0' : List Char)
    (rest : List (Nat × List Char)) :
    (renderLine (b :: w0') rest).head? = some b := rfl

/-- `str.strip` does nothing to a conforming line. -/
theorem pyStrip_renderLine (w0 : List Char) (rest : List (Nat × List Char))
    (h0 : goodWord w0) (hrest : ∀ p ∈ rest, goodWord p.2) :
    pyStrip (renderLine w0 rest) = renderLine w0 rest := by
  obtain ⟨b, w0', rfl⟩ : ∃ b w0', w0 = b :: w0' := by
    cases w0 with
    | nil => exact absurd rfl h0.1
    | cons b w0' => exact ⟨b, w0', rfl⟩
  refine pyStrip_eq_self _ ?_ (renderLine_getLast_not_ws _ rest h0 hrest)
  intro c hc
  rw [renderLine_head] at hc
  have hcb : c = b := by
    injection hc with h2
    exact h2.symm
  subst hcb
  exact h0.2 c (List.mem_cons_self _ _)

theorem map_tab_id_of_no_space (l : List Char) (h : ∀ c ∈ l, c ≠ ' ') :
    (l.map fun a => if a = ' ' then '\t' else a) = l := by
  rw [List.map_congr_left fun a ha => if_neg (h a ha), map_id_fun]

theorem map_tab_renderTail_ones :
    ∀ rest : List (Nat × List Char), (∀ p ∈ rest, goodWord p.2) →
      ((renderTail (rest.map fun p => (1, p.2))).map
        fun a => if a = ' ' then '\t' else a) = tabTail rest := by
  intro rest
  induction rest with
  | nil => intro _; rfl
  | cons p rest ih =>
    intro hgood
    obtain ⟨g, w⟩ := p
    obtain ⟨hwne, hwc⟩ := hgood (g, w) (List.mem_cons_self _ _)
    show ((' ' :: (w ++ renderTail (rest.map fun p => (1, p.2)))).map
        fun a => if a = ' ' then '\t' else a) = '\t' :: (w ++ tabTail rest)
    rw [List.map_cons, if_pos rfl, List.map_append,
      map_tab_id_of_no_space w (fun c hc => ne_space_of_not_ws c (hwc c hc)),
      ih fun q hq => hgood q (List.mem_cons_of_mem _ hq)]

/-- The space-to-tab pass turns a single-space conforming line into its
tab-joined form. -/
theorem spaceToTab_renderOnes (w0 : List Char) (rest : List (Nat × List Char))
    (h0 : goodWord w0) (hrest : ∀ p ∈ rest, goodWord p.2) :
    spaceToTab (renderLine w0 (rest.map fun p => (1, p.2))) =
      tabJoinLine w0 rest := by
  rw [spaceToTab_eq_map]
  show ((w0 ++ renderTail (rest.map fun p => (1, p.2))).map
      fun a => if a = ' ' then '\t' else a) = w0 ++ tabTail rest
  rw [List.map_append,
    map_tab_id_of_no_space w0 (fun c hc => ne_space_of_not_ws c (h0.2 c hc)),
    map_tab_renderTail_ones rest hrest]

/-- The per-line pipeline of `reformat_tblout` on a conforming line in which
neither label occurs after collapsing: the line becomes its tab-joined form. -/
theorem processLine_render_conforming (w0 : List Char)
    (rest : List (Nat × List Char)) (h0 : goodWord w0)
    (hrest : ∀ p ∈ rest, (1 ≤ p.1 ∧ p.1 ≤ 19) ∧ goodWord p.2)
    (hb : hasOccur bacLabelSp (renderLine w0 (rest.map fun p => (1, p.2))) =
      false)
    (ha : hasOccur arcLabelSp (renderLine w0 (rest.map fun p => (1, p.2))) =
      false) :
    processLine (renderLine w0 rest) = tabJoinLine w0 rest := by
  have hwords : ∀ p ∈ rest, goodWord p.2 := fun p hp => (hrest p hp).2
  show spaceToTab (substLabels (collapseSpaces (pyStrip (renderLine w0 rest))))
      = _
  rw [pyStrip_renderLine w0 rest h0 hwords,
    collapseSpaces_renderLine w0 rest h0 hwords]
  have hm : (rest.map fun p => (foldPasses p.1, p.2)) =
      rest.map fun p => (1, p.2) :=
    List.map_congr_left fun p hp => by
      rw [foldPasses_one p.1 (hrest p hp).1.1 (hrest p hp).1.2]
  rw [hm]
  have hsub : substLabels (renderLine w0 (rest.map fun p => (1, p.2))) =
      renderLine w0 (rest.map fun p => (1, p.2)) := by
    show pyReplaceStr arcLabelSp arcLabelUnd
        (pyReplaceStr bacLabelSp bacLabelUnd _) = _
    rw [pyReplaceStr_of_not_occur _ _ _ hb, pyReplaceStr_of_not_occur _ _ _ ha]
  rw [hsub]
  exact spaceToTab_renderOnes w0 rest h0 hwords

/-! ## Claim C4 -/

/-- Counterexample to claim C4 as stated for *every* single-word input: the
line whose five single-space-separated fields spell the bacterial label is
merged into one underscore-joined field, so the output line contains no tab at
all between the original fields.  The third conjunct exhibits the line as a
conforming five-field rendering. -/
theorem c4_counterexample :
    reformat_tblout [cexC4Line] tbloutHeader = [tbloutHeader, bacLabelUnd] ∧
    '\t' ∉ bacLabelUnd ∧
    cexC4Line =
      renderLine "Bacterial".toList
        [(1, "small".toList), (1, "subunit".toList), (1, "ribosomal".toList),
          (1, "RNA".toList)] := by
  refine ⟨?_, by decide, by decide⟩
  decide

theorem map_processLine_render :
    ∀ rows : List (List Char × List (Nat × List Char)),
      (∀ r ∈ rows, goodRow r) →
      (∀ r ∈ rows,
        hasOccur bacLabelSp (renderLine r.1 (r.2.map fun p => (1, p.2))) =
          false ∧
        hasOccur arcLabelSp (renderLine r.1 (r.2.map fun p => (1, p.2))) =
          false) →
      ((rows.map fun r => renderLine r.1 r.2).map processLine) =
        rows.map fun r => tabJoinLine r.1 r.2 := by
  intro rows
  induction rows with
  | nil =>
    intro _ _
    simp only [List.map_nil]
  | cons r rows ih =>
    intro hg hlab
    simp only [List.map_cons]
    rw [processLine_render_conforming r.1 r.2 (hg r (List.mem_cons_self _ _)).1
        (fun p hp => (hg r (List.mem_cons_self _ _)).2 p hp)
        (hlab r (List.mem_cons_self _ _)).1 (hlab r (List.mem_cons_self _ _)).2,
      ih (fun q hq => hg q (List.mem_cons_of_mem _ hq))
        (fun q hq => hlab q (List.mem_cons_of_mem _ hq))]

/-- Claim C4 as amended: for every input whose non-comment data lines are
single-word fields separated by 1–19 spaces, *in which no occurrence of either
substituted label survives collapsing*, the output starts with the declared
header and every data line is the tab-join of its fields (exactly one tab
between adjacent fields, ends stripped). -/
theorem c4_reformat_conforming
    (rows : List (List Char × List (Nat × List Char))) (header : List Char)
    (hg : ∀ r ∈ rows, goodRow r)
    (hh : ∀ r ∈ rows, r.1.head? ≠ some '#')
    (hlab : ∀ r ∈ rows,
      hasOccur bacLabelSp (renderLine r.1 (r.2.map fun p => (1, p.2))) =
        false ∧
      hasOccur arcLabelSp (renderLine r.1 (r.2.map fun p => (1, p.2))) =
        false) :
    reformat_tblout (rows.map fun r => renderLine r.1 r.2) header =
      header :: rows.map fun r => tabJoinLine r.1 r.2 := by
  rw [reformat_tblout_eq_map]
  refine congrArg (List.cons header) ?_
  have hfilter : (rows.map fun r => renderLine r.1 r.2).filter keepLine =
      rows.map fun r => renderLine r.1 r.2 := by
    rw [List.filter_eq_self]
    intro l hl
    rcases List.mem_map.mp hl with ⟨r, hr, rfl⟩
    obtain ⟨b, w0', hw0⟩ : ∃ b w0', r.1 = b :: w0' := by
      cases hcase : r.1 with
      | nil => exact absurd (hcase ▸ rfl) ((hg r hr).1.1)
      | cons b w0' => exact ⟨b, w0', rfl⟩
    have hb : b ≠ '#' := by
      intro hbe
      exact hh r hr (by rw [hw0, hbe]; rfl)
    show keepLine (renderLine r.1 r.2) = true
    rw [hw0, keepLine, renderLine_head]
    simpa using hb
  rw [hfilter]
  exact map_processLine_render rows hg hlab

/-- Witness for C4 at a concrete conforming table of two lines. -/
theorem c4_witness :
    reformat_tblout
        ([("foo".toList, [(2, "bar".toList), (19, "baz".toList)]),
          ("a1".toList, [(1, "b2".toList)])].map fun r => renderLine r.1 r.2)
        tbloutHeader =
      tbloutHeader ::
        [("foo".toList, [(2, "bar".toList), (19, "baz".toList)]),
          ("a1".toList, [(1, "b2".toList)])].map
          (fun r => tabJoinLine r.1 r.2) :=
  c4_reformat_conforming _ tbloutHeader (by decide) (by decide) (by decide)

/-! ## Claim C5 -/

theorem pyReplaceStr_ne_nil (p : Char) (ps rep : List Char) (hrep : rep ≠ [])
    (s : List Char) (hs : s ≠ []) : pyReplaceStr (p :: ps) rep s ≠ [] := by
  cases s with
  | nil => exact absurd rfl hs
  | cons a s' =>
    rw [pyReplaceStr_cons]
    by_cases hl : leadsWith (p :: ps) (a :: s') = true
    · rw [if_pos hl]
      simp [hrep]
    · rw [if_neg hl]
      simp

theorem cons_getLast?_of_ne_nil {α : Type} (a : α) (l : List α) (h : l ≠ []) :
    (a :: l).getLast? = l.getLast? := by
  rw [show a :: l = [a] ++ l from rfl, getLast?_append_of_ne_nil [a] l h]

/-- `str.replace` with a replacement ending in a non-whitespace character
keeps "the last character is not whitespace" invariant. -/
theorem pyReplaceStr_getLast_not_ws (p : Char) (ps rep : List Char)
    (hrep : rep ≠ []) (hrepl : ∀ c, rep.getLast? = some c → isPyWs c = false) :
    ∀ (n : Nat) (s : List Char), s.length ≤ n →
      (∀ c, s.getLast? = some c → isPyWs c = false) →
      ∀ c, (pyReplaceStr (p :: ps) rep s).getLast? = some c →
        isPyWs c = false := by
  intro n
  induction n with
  | zero =>
    intro s hlen _ c h
    have hs : s = [] := List.eq_nil_of_length_eq_zero (Nat.le_zero.mp hlen)
    subst hs
    rw [pyReplaceStr_nil] at h
    simp at h
  | succ n ih =>
    intro s hlen hs c h
    cases s with
    | nil =>
      rw [pyReplaceStr_nil] at h
      simp at h
    | cons a s' =>
      rw [pyReplaceStr_cons] at h
      by_cases hl : leadsWith (p :: ps) (a :: s') = true
      · rw [if_pos hl] at h
        by_cases hd :
            pyReplaceStr (p :: ps) rep (s'.drop ((p :: ps).length - 1)) = []
        · rw [hd, List.append_nil] at h
          exact hrepl c h
        · rw [getLast?_append_of_ne_nil _ _ hd] at h
          have hdne : s'.drop ((p :: ps).length - 1) ≠ [] := by
            intro he
            rw [he, pyReplaceStr_nil] at hd
            exact hd rfl
          refine ih (s'.drop ((p :: ps).length - 1)) ?_ ?_ c h
          · simp only [List.length_drop]
            simp only [List.length_cons] at hlen
            omega
          · intro c' hc'
            apply hs c'
            have hsne : s' ≠ [] := by
              intro he
              rw [he] at hdne
              simp at hdne
            have h1 : s'.getLast? = (s'.drop ((p :: ps).length - 1)).getLast? := by
              conv_lhs => rw [← List.take_append_drop ((p :: ps).length - 1) s']
              rw [getLast?_append_of_ne_nil _ _ hdne]
            rw [cons_getLast?_of_ne_nil a s' hsne, h1]
            exact hc'
      · rw [if_neg hl] at h
        by_cases hse : s' = []
        · subst hse
          rw [pyReplaceStr_nil] at h
          exact hs c h
        · have hne : pyReplaceStr (p :: ps) rep s' ≠ [] :=
            pyReplaceStr_ne_nil p ps rep hrep s' hse
          rw [cons_getLast?_of_ne_nil a _ hne] at h
          refine ih s' ?_ ?_ c h
          · simp only [List.length_cons] at hlen
            omega
          · intro c' hc'
            apply hs c'
            rw [cons_getLast?_of_ne_nil a s' hse]
            exact hc'

/-- `str.replace` with pattern and replacement sharing their first character
preserves the first character of the string. -/
theorem pyReplaceStr_head_same (c : Char) (cs rs : List Char) :
    ∀ s : List Char, (pyReplaceStr (c :: cs) (c :: rs) s).head? = s.head? := by
  intro s
  cases s with
  | nil => rw [pyReplaceStr_nil]
  | cons a s' =>
    rw [pyReplaceStr_cons]
    by_cases hl : leadsWith (c :: cs) (a :: s') = true
    · rw [if_pos hl]
      have hca : c = a := by
        simp only [leadsWith, Bool.and_eq_true, beq_iff_eq] at hl
        exact hl.1
      subst hca
      rfl
    · rw [if_neg hl]
      rfl

theorem getLast?_map_inv {α β : Type} (f : α → β) :
    ∀ (l : List α) (c : β), (l.map f).getLast? = some c →
      ∃ a, l.getLast? = some a ∧ c = f a := by
  intro l
  induction l with
  | nil => intro c h; simp at h
  | cons a t ih =>
    intro c h
    cases t with
    | nil =>
      simp only [List.map_cons, List.map_nil, List.getLast?_singleton,
        Option.some_inj] at h
      exact ⟨a, List.getLast?_singleton a, h.symm⟩
    | cons b t' =>
      rw [List.map_cons, List.map_cons, List.getLast?_cons_cons] at h
      rw [List.getLast?_cons_cons]
      exact ih c (by rw [List.map_cons]; exact h)

theorem spaceToTab_head (X : List Char) (b : Char) (hX : X.head? = some b)
    (hb : b ≠ ' ') : (spaceToTab X).head? = some b := by
  rw [spaceToTab_eq_map]
  cases X with
  | nil => simp at hX
  | cons a t =>
    have hab : a = b := by injection hX
    subst hab
    rw [List.map_cons]
    show some (if a = ' ' then '\t' else a) = some a
    rw [if_neg hb]

theorem spaceToTab_getLast_not_ws (X : List Char)
    (hX : ∀ c, X.getLast? = some c → isPyWs c = false) :
    ∀ c, (spaceToTab X).getLast? = some c → isPyWs c = false := by
  intro c h
  rw [spaceToTab_eq_map] at h
  rcases getLast?_map_inv _ X c h with ⟨a, ha, rfl⟩
  have hans : isPyWs a = false := hX a ha
  rw [if_neg (ne_space_of_not_ws a hans)]
  exact hans

/-- The head character survives both label substitutions (each label and its
replacement start with the same letter). -/
theorem substLabels_head (L : List Char) : (substLabels L).head? = L.head? := by
  show (pyReplaceStr arcLabelSp arcLabelUnd
      (pyReplaceStr bacLabelSp bacLabelUnd L)).head? = _
  have h1 : (pyReplaceStr bacLabelSp bacLabelUnd L).head? = L.head? :=
    pyReplaceStr_head_same 'B' ("acterial small subunit ribosomal RNA".toList)
      ("acterial_small_subunit_ribosomal_RNA".toList) L
  have h2 : (pyReplaceStr arcLabelSp arcLabelUnd
      (pyReplaceStr bacLabelSp bacLabelUnd L)).head? =
      (pyReplaceStr bacLabelSp bacLabelUnd L).head? :=
    pyReplaceStr_head_same 'A' ("rchaeal small subunit ribosomal RNA".toList)
      ("rchaeal_small_subunit_ribosomal_RNA".toList) _
  rw [h2, h1]

/-- The last character stays non-whitespace across both label substitutions. -/
theorem bacLabelUnd_getLast_not_ws :
    ∀ c, bacLabelUnd.getLast? = some c → isPyWs c = false := by
  intro c hc
  have hA : bacLabelUnd.getLast? = some 'A' := by decide
  rw [hA] at hc
  injection hc with h2
  rw [← h2]
  decide

theorem arcLabelUnd_getLast_not_ws :
    ∀ c, arcLabelUnd.getLast? = some c → isPyWs c = false := by
  intro c hc
  have hA : arcLabelUnd.getLast? = some 'A' := by decide
  rw [hA] at hc
  injection hc with h2
  rw [← h2]
  decide

theorem substLabels_getLast_not_ws (L : List Char)
    (hL : ∀ c, L.getLast? = some c → isPyWs c = false) :
    ∀ c, (substLabels L).getLast? = some c → isPyWs c = false := by
  intro c h
  have h1 := pyReplaceStr_getLast_not_ws 'B'
    ("acterial small subunit ribosomal RNA".toList) bacLabelUnd (by decide)
    bacLabelUnd_getLast_not_ws L.length L (Nat.le_refl _) hL
  have h2 := pyReplaceStr_getLast_not_ws 'A'
    ("rchaeal small subunit ribosomal RNA".toList) arcLabelUnd (by decide)
    arcLabelUnd_getLast_not_ws (pyReplaceStr bacLabelSp bacLabelUnd L).length
    (pyReplaceStr bacLabelSp bacLabelUnd L) (Nat.le_refl _) h1
  exact h2 c h

/-- The head character of the processed form of a conforming line is the head
character of its first word. -/
theorem processLine_render_head (b : Char) (w0' : List Char)
    (rest : List (Nat × List Char)) (h0 : goodWord (b :: w0'))
    (hrest : ∀ p ∈ rest, goodWord p.2) :
    (processLine (renderLine (b :: w0') rest)).head? = some b := by
  show (spaceToTab (substLabels (collapseSpaces
      (pyStrip (renderLine (b :: w0') rest))))).head? = _
  rw [pyStrip_renderLine _ rest h0 hrest,
    collapseSpaces_renderLine _ rest h0 hrest]
  refine spaceToTab_head _ b ?_
    (ne_space_of_not_ws b (h0.2 b (List.mem_cons_self _ _)))
  rw [substLabels_head, renderLine_head]

/-- The last character of the processed form of a conforming line is not
whitespace. -/
theorem processLine_render_last (w0 : List Char)
    (rest : List (Nat × List Char)) (h0 : goodWord w0)
    (hrest : ∀ p ∈ rest, goodWord p.2) :
    ∀ c, (processLine (renderLine w0 rest)).getLast? = some c →
      isPyWs c = false := by
  intro c h
  have hshow : processLine (renderLine w0 rest) =
      spaceToTab (substLabels (collapseSpaces (pyStrip (renderLine w0 rest)))) :=
    rfl
  rw [hshow, pyStrip_renderLine _ rest h0 hrest,
    collapseSpaces_renderLine _ rest h0 hrest] at h
  refine spaceToTab_getLast_not_ws _ ?_ c h
  refine substLabels_getLast_not_ws _ ?_
  refine renderLine_getLast_not_ws w0 _ h0 ?_
  intro p hp
  rcases List.mem_map.mp hp with ⟨q, hq, rfl⟩
  exact hrest q hq

/-- No space character occurs in the processed form of any line. -/
theorem processLine_no_space (l : List Char) : ' ' ∉ processLine l :=
  space_not_mem_spaceToTab _

/-- The per-line pipeline is idempotent on conforming lines. -/
theorem processLine_idem_render (w0 : List Char)
    (rest : List (Nat × List Char)) (h0 : goodWord w0)
    (hrest : ∀ p ∈ rest, goodWord p.2) :
    processLine (processLine (renderLine w0 rest)) =
      processLine (renderLine w0 rest) := by
  obtain ⟨b, w0', rfl⟩ : ∃ b w0', w0 = b :: w0' := by
    cases hcase : w0 with
    | nil => exact absurd (hcase ▸ rfl) h0.1
    | cons b w0' => exact ⟨b, w0', rfl⟩
  have hsp : ' ' ∉ processLine (renderLine (b :: w0') rest) :=
    processLine_no_space _
  have hhead : (processLine (renderLine (b :: w0') rest)).head? = some b :=
    processLine_render_head b w0' rest h0 hrest
  have hlast := processLine_render_last (b :: w0') rest h0 hrest
  have hstrip : pyStrip (processLine (renderLine (b :: w0') rest)) =
      processLine (renderLine (b :: w0') rest) := by
    refine pyStrip_eq_self _ ?_ hlast
    intro c hc
    have hcb : c = b := Option.some_inj.mp (hc.symm.trans hhead)
    subst hcb
    exact h0.2 c (List.mem_cons_self _ _)
  show spaceToTab (substLabels (collapseSpaces
      (pyStrip (processLine (renderLine (b :: w0') rest))))) = _
  rw [hstrip, collapseSpaces_of_no_space _ hsp, substLabels_of_no_space _ hsp,
    spaceToTab_of_no_space _ hsp]

theorem map_processLine_idem :
    ∀ L : List (List Char),
      (∀ l ∈ L, processLine (processLine l) = processLine l) →
      (L.map processLine).map processLine = L.map processLine := by
  intro L
  induction L with
  | nil => intro _; simp only [List.map_nil]
  | cons l L ih =>
    intro h
    simp only [List.map_cons]
    rw [h l (List.mem_cons_self _ _), ih fun x hx => h x (List.mem_cons_of_mem _ hx)]

/-- Claim C5: `reformat_tblout` is idempotent on conforming input — running
the reformatter on the data lines of its own output (header stripped, same
header re-supplied) reproduces the output byte for byte. -/
theorem c5_reformat_idempotent
    (rows : List (List Char × List (Nat × List Char))) (header : List Char)
    (hg : ∀ r ∈ rows, goodRow r)
    (hh : ∀ r ∈ rows, r.1.head? ≠ some '#') :
    reformat_tblout
        ((reformat_tblout (rows.map fun r => renderLine r.1 r.2) header).tail)
        header =
      reformat_tblout (rows.map fun r => renderLine r.1 r.2) header := by
  rw [reformat_tblout_eq_map (rows.map fun r => renderLine r.1 r.2) header]
  simp only [List.tail_cons]
  rw [reformat_tblout_eq_map]
  refine congrArg (List.cons header) ?_
  have hmem : ∀ l ∈ ((rows.map fun r => renderLine r.1 r.2).filter keepLine),
      ∃ r ∈ rows, l = renderLine r.1 r.2 := by
    intro l hl
    rcases List.mem_map.mp (List.mem_of_mem_filter hl) with ⟨r, hr, rfl⟩
    exact ⟨r, hr, rfl⟩
  have hkeep :
      (((rows.map fun r => renderLine r.1 r.2).filter keepLine).map
        processLine).filter keepLine =
      ((rows.map fun r => renderLine r.1 r.2).filter keepLine).map
        processLine := by
    rw [List.filter_eq_self]
    intro l hl
    rcases List.mem_map.mp hl with ⟨x, hx, rfl⟩
    rcases hmem x hx with ⟨r, hr, rfl⟩
    obtain ⟨b, w0', hw0⟩ : ∃ b w0', r.1 = b :: w0' := by
      cases hcase : r.1 with
      | nil => exact absurd (hcase ▸ rfl) ((hg r hr).1.1)
      | cons b w0' => exact ⟨b, w0', rfl⟩
    have hb : b ≠ '#' := by
      intro hbe
      exact hh r hr (by rw [hw0, hbe]; rfl)
    have hhd : (processLine (renderLine r.1 r.2)).head? = some b := by
      rw [hw0]
      exact processLine_render_head b w0' r.2 (hw0 ▸ (hg r hr).1)
        (fun p hp => ((hg r hr).2 p hp).2)
    show keepLine (processLine (renderLine r.1 r.2)) = true
    rw [keepLine, hhd]
    simpa using hb
  rw [hkeep]
  refine map_processLine_idem _ ?_
  intro l hl
  rcases hmem l hl with ⟨r, hr, rfl⟩
  exact processLine_idem_render r.1 r.2 (hg r hr).1
    (fun p hp => ((hg r hr).2 p hp).2)

/-- Witness for C5 at a concrete conforming table (labels included: the
bacterial label line is merged to one field on the first run and untouched on
the second). -/
theorem c5_witness :
    reformat_tblout
        ((reformat_tblout
          ([("gene7".toList,
              [(3, "Bacterial".toList), (1, "small".toList),
                (1, "subunit".toList), (1, "ribosomal".toList),
                (1, "RNA".toList)])].map fun r => renderLine r.1 r.2)
          tbloutHeader).tail)
        tbloutHeader =
      reformat_tblout
        ([("gene7".toList,
            [(3, "Bacterial".toList), (1, "small".toList),
              (1, "subunit".toList), (1, "ribosomal".toList),
              (1, "RNA".toList)])].map fun r => renderLine r.1 r.2)
        tbloutHeader :=
  c5_reformat_idempotent _ tbloutHeader (by decide) (by decide)

/-! ## Claim C6 -/

theorem leadsWith_of_leadsWith_append (p : List Char) :
    ∀ (q t : List Char), leadsWith (p ++ q) t = true → leadsWith p t = true := by
  induction p with
  | nil => intro q t _; rfl
  | cons a ps ih =>
    intro q t h
    cases t with
    | nil => simp [leadsWith] at h
    | cons b bs =>
      simp only [List.cons_append, leadsWith, Bool.and_eq_true] at h ⊢
      exact ⟨h.1, ih q bs h.2⟩

theorem hasOccur_of_hasOccur_append (p q : List Char) (hp : p ≠ []) :
    ∀ s : List Char, hasOccur (p ++ q) s = true → hasOccur p s = true := by
  intro s
  induction s with
  | nil =>
    intro h
    simp only [hasOccur, List.isEmpty_iff] at h
    exact absurd (List.append_eq_nil.mp h).1 hp
  | cons a s ih =>
    intro h
    simp only [hasOccur, Bool.or_eq_true] at h ⊢
    rcases h with h | h
    · exact Or.inl (leadsWith_of_leadsWith_append p q _ h)
    · exact Or.inr (ih h)

theorem foldl_collapsePass_of_no_double (s : List Char)
    (h : hasOccur twoSpaces s = false) :
    ∀ ks : List Nat, (∀ k ∈ ks, 2 ≤ k) → ks.foldl collapsePass s = s := by
  intro ks
  induction ks with
  | nil => intro _; rfl
  | cons k ks ih =>
    intro hall
    have hk := hall k (List.mem_cons_self _ _)
    have hnone : hasOccur (spaces k) s = false := by
      cases ho : hasOccur (spaces k) s
      · rfl
      · exfalso
        have hsplit : spaces k = twoSpaces ++ spaces (k - 2) := by
          show List.replicate k ' ' = [' ', ' '] ++ List.replicate (k - 2) ' '
          rw [show [' ', ' '] ++ List.replicate (k - 2) ' ' =
            List.replicate ((k - 2) + 2) ' ' from rfl]
          congr 1
          omega
        rw [hsplit] at ho
        rw [hasOccur_of_hasOccur_append twoSpaces (spaces (k - 2))
          (by decide) s ho] at h
        exact Bool.true_eq_false.mp h
    rw [List.foldl_cons,
      show collapsePass s k = s from pyReplaceStr_of_not_occur _ _ s hnone]
    exact ih fun q hq => hall q (List.mem_cons_of_mem _ hq)

/-- Without a double space, no space run of length ≥ 2 occurs, so every
collapsing pass is the identity. -/
theorem collapseSpaces_of_no_double (s : List Char)
    (h : hasOccur twoSpaces s = false) : collapseSpaces s = s :=
  foldl_collapsePass_of_no_double s h collapseNums (by decide)

theorem leadsWith_single_space (X : List Char) :
    leadsWith [' '] X = true ↔ X.head? = some ' ' := by
  cases X with
  | nil => simp [leadsWith]
  | cons a t =>
    simp only [leadsWith, Bool.and_eq_true, beq_iff_eq, List.head?_cons,
      Option.some_inj]
    constructor
    · intro h; exact h.1.symm
    · intro h; exact ⟨h.symm, trivial⟩

/-- If the replacement does not start with a space, a space at the head of a
`str.replace` result was already at the head of the input. -/
theorem head_space_of_pyReplaceStr (p : Char) (ps rep : List Char)
    (hrep : rep ≠ []) (hrepH : rep.head? ≠ some ' ') (t : List Char)
    (h : (pyReplaceStr (p :: ps) rep t).head? = some ' ') :
    t.head? = some ' ' := by
  cases t with
  | nil =>
    rw [pyReplaceStr_nil] at h
    simp at h
  | cons a t' =>
    rw [pyReplaceStr_cons] at h
    by_cases hl : leadsWith (p :: ps) (a :: t') = true
    · rw [if_pos hl] at h
      cases hr : rep with
      | nil => exact absurd hr hrep
      | cons r0 rs =>
        rw [hr, List.cons_append, List.head?_cons] at h
        rw [hr] at hrepH
        exact absurd (by rw [List.head?_cons, h]) hrepH
    · rw [if_neg hl] at h
      exact h

/-- `hasOccur` of the double space over an append, given the boundary cannot
form a new double space. -/
theorem no_double_append (u v : List Char)
    (hu : hasOccur twoSpaces u = false) (hv : hasOccur twoSpaces v = false)
    (hb : ¬(u.getLast? = some ' ' ∧ v.head? = some ' ')) :
    hasOccur twoSpaces (u ++ v) = false := by
  induction u with
  | nil => exact hv
  | cons a u ih =>
    simp only [hasOccur, Bool.or_eq_false_iff] at hu
    cases u with
    | nil =>
      show hasOccur twoSpaces (a :: v) = false
      simp only [hasOccur, Bool.or_eq_false_iff]
      refine ⟨?_, hv⟩
      show leadsWith [' ', ' '] (a :: v) = false
      cases hlw : leadsWith [' ', ' '] (a :: v)
      · rfl
      · exfalso
        simp only [leadsWith, Bool.and_eq_true, beq_iff_eq] at hlw
        refine hb ⟨?_, ?_⟩
        · rw [List.getLast?_singleton, hlw.1]
        · exact (leadsWith_single_space v).mp (by
            cases v with
            | nil => simp [leadsWith] at hlw
            | cons b bs =>
              simp only [leadsWith, Bool.and_eq_true] at hlw ⊢
              exact hlw.2)
    | cons a2 u2 =>
      show hasOccur twoSpaces (a :: ((a2 :: u2) ++ v)) = false
      simp only [hasOccur, Bool.or_eq_false_iff]
      constructor
      · show leadsWith [' ', ' '] (a :: (a2 :: u2 ++ v)) = false
        cases hlw : leadsWith [' ', ' '] (a :: (a2 :: u2 ++ v))
        · rfl
        · exfalso
          simp only [List.cons_append, leadsWith, Bool.and_eq_true,
            beq_iff_eq, and_true] at hlw
          have hcontra : leadsWith twoSpaces (a :: a2 :: u2) = true := by
            show leadsWith [' ', ' '] (a :: a2 :: u2) = true
            simp only [leadsWith, Bool.and_eq_true, beq_iff_eq, and_true]
            exact hlw
          exact Bool.true_eq_false.mp (hcontra.symm.trans hu.1)
      · have hx : hasOccur twoSpaces ((a2 :: u2) ++ v) = false := by
          refine ih hu.2 ?_
          intro hcontra
          refine hb ⟨?_, hcontra.2⟩
          rw [cons_getLast?_of_ne_nil a (a2 :: u2) (by simp)]
          exact hcontra.1
        simp only [List.cons_append, hasOccur, Bool.or_eq_false_iff] at hx
        exact hx

/-- A label substitution cannot create a double space: the replacement has no
internal double space and neither starts nor ends with one. -/
theorem pyReplaceStr_no_double (p : Char) (ps rep : List Char) (hrep : rep ≠ [])
    (hrep2 : hasOccur twoSpaces rep = false)
    (hrepH : rep.head? ≠ some ' ') (hrepL : rep.getLast? ≠ some ' ') :
    ∀ (n : Nat) (s : List Char), s.length ≤ n →
      hasOccur twoSpaces s = false →
      hasOccur twoSpaces (pyReplaceStr (p :: ps) rep s) = false := by
  intro n
  induction n with
  | zero =>
    intro s hlen _
    have hs : s = [] := List.eq_nil_of_length_eq_zero (Nat.le_zero.mp hlen)
    subst hs
    rw [pyReplaceStr_nil]
    rfl
  | succ n ih =>
    intro s hlen hs
    cases s with
    | nil => rw [pyReplaceStr_nil]; rfl
    | cons a s' =>
      have hs' : hasOccur twoSpaces s' = false := by
        simp only [hasOccur, Bool.or_eq_false_iff] at hs
        exact hs.2
      rw [pyReplaceStr_cons]
      by_cases hl : leadsWith (p :: ps) (a :: s') = true
      · rw [if_pos hl]
        refine no_double_append rep _ hrep2 ?_ ?_
        · refine ih (s'.drop ((p :: ps).length - 1)) ?_ ?_
          · simp only [List.length_drop]
            simp only [List.length_cons] at hlen
            omega
          · cases hd : hasOccur twoSpaces (s'.drop ((p :: ps).length - 1))
            · rfl
            · exfalso
              have h1 : hasOccur twoSpaces s' = true := by
                conv_lhs =>
                  rw [← List.take_append_drop ((p :: ps).length - 1) s']
                exact hasOccur_append_right _ _ _ hd
              rw [h1] at hs'
              exact Bool.true_eq_false.mp hs'
        · intro hcontra
          exact hrepL hcontra.1
      · rw [if_neg hl]
        show hasOccur twoSpaces (a :: pyReplaceStr (p :: ps) rep s') = false
        simp only [hasOccur, Bool.or_eq_false_iff]
        constructor
        · show leadsWith [' ', ' '] (a :: pyReplaceStr (p :: ps) rep s') = false
          cases hlw : leadsWith [' ', ' '] (a :: pyReplaceStr (p :: ps) rep s')
          · rfl
          · exfalso
            simp only [leadsWith, Bool.and_eq_true, beq_iff_eq] at hlw
            have hXhead : (pyReplaceStr (p :: ps) rep s').head? = some ' ' := by
              refine (leadsWith_single_space _).mp ?_
              cases hX : pyReplaceStr (p :: ps) rep s' with
              | nil => rw [hX] at hlw; simp [leadsWith] at hlw
              | cons x xs =>
                rw [hX] at hlw
                simp only [leadsWith, Bool.and_eq_true] at hlw ⊢
                exact hlw.2
            have hshead : s'.head? = some ' ' :=
              head_space_of_pyReplaceStr p ps rep hrep hrepH s' hXhead
            have h1 : (' ' == a) = true := beq_iff_eq.mpr hlw.1
            have h2 : leadsWith [' '] s' = true :=
              (leadsWith_single_space s').mpr hshead
            have hdouble : hasOccur twoSpaces (a :: s') = true := by
              show (((' ' == a) && leadsWith [' '] s') ||
                hasOccur [' ', ' '] s') = true
              rw [h1, h2]
              rfl
            exact Bool.true_eq_false.mp (hdouble.symm.trans hs)
        · exact ih s' (by simp only [List.length_cons] at hlen; omega) hs'

/-- Both label substitutions preserve absence of double spaces. -/
theorem substLabels_no_double (s : List Char)
    (h : hasOccur twoSpaces s = false) :
    hasOccur twoSpaces (substLabels s) = false := by
  show hasOccur twoSpaces (pyReplaceStr arcLabelSp arcLabelUnd
    (pyReplaceStr bacLabelSp bacLabelUnd s)) = false
  have h1 : hasOccur twoSpaces (pyReplaceStr bacLabelSp bacLabelUnd s) =
      false :=
    pyReplaceStr_no_double 'B'
      ("acterial small subunit ribosomal RNA".toList) bacLabelUnd (by decide)
      (by decide) (by decide) (by decide) s.length s (Nat.le_refl _) h
  exact pyReplaceStr_no_double 'A'
    ("rchaeal small subunit ribosomal RNA".toList) arcLabelUnd (by decide)
    (by decide) (by decide) (by decide) _ _ (Nat.le_refl _) h1

/-- On a line with no run of two or more spaces, substituting the labels first
and collapsing afterwards equals the implemented collapse-then-substitute
pipeline. -/
theorem specFirstLine_eq_processLine (l : List Char)
    (h : hasOccur twoSpaces l = false) : specFirstLine l = processLine l := by
  show spaceToTab (collapseSpaces (substLabels (pyStrip l))) =
    spaceToTab (substLabels (collapseSpaces (pyStrip l)))
  have hstrip : hasOccur twoSpaces (pyStrip l) = false :=
    hasOccur_pyStrip twoSpaces l h
  rw [collapseSpaces_of_no_double (pyStrip l) hstrip,
    collapseSpaces_of_no_double (substLabels (pyStrip l))
      (substLabels_no_double (pyStrip l) hstrip)]

/-- Counterexample to claim C6 as stated for *every* data line: when the label
words are separated by two spaces, the implementation first collapses and then
substitutes (producing the underscore-joined field), while the
substitute-first pipeline misses the label and tab-separates its words. -/
theorem c6_counterexample :
    specFirstReformat [cexC6Line] tbloutHeader ≠
      reformat_tblout [cexC6Line] tbloutHeader := by
  decide

theorem map_specFirstLine_processLine :
    ∀ L : List (List Char), (∀ l ∈ L, hasOccur twoSpaces l = false) →
      L.map (fun l => specFirstLine l) = L.map processLine := by
  intro L
  induction L with
  | nil => intro _; simp only [List.map_nil]
  | cons l L ih =>
    intro h
    simp only [List.map_cons]
    rw [specFirstLine_eq_processLine l (h l (List.mem_cons_self _ _)),
      ih fun x hx => h x (List.mem_cons_of_mem _ hx)]

/-- Claim C6 as amended: on input files in which every line's space runs are
single spaces, the substitute-first pipeline produces the same file as the
implemented pipeline (and each single-space label occurrence survives as one
underscore-joined field); with longer runs inside a label the two pipelines
differ (`c6_counterexample`). -/
theorem c6_subst_first_single_space (lines : List (List Char))
    (header : List Char) (h : ∀ l ∈ lines, hasOccur twoSpaces l = false) :
    specFirstReformat lines header = reformat_tblout lines header := by
  rw [reformat_tblout_eq_map]
  show header :: (lines.filter keepLine).map (fun l => specFirstLine l) = _
  refine congrArg (List.cons header) ?_
  exact map_specFirstLine_processLine _
    (fun l hl => h l (List.mem_of_mem_filter hl))

/-- Witness for C6 at a concrete single-space line containing the label. -/
theorem c6_witness :
    specFirstReformat ["x Bacterial small subunit ribosomal RNA".toList]
        tbloutHeader =
      reformat_tblout ["x Bacterial small subunit ribosomal RNA".toList]
        tbloutHeader :=
  c6_subst_first_single_space _ tbloutHeader (by decide)

/-! ## Claim C2 -/

theorem drop_eq_cons_of_getElem {α : Type} :
    ∀ (l : List α) (n : Nat) (a : α), l[n]? = some a →
      l.drop n = a :: l.drop (n + 1) := by
  intro l
  induction l with
  | nil => intro n a h; simp at h
  | cons x xs ih =>
    intro n a h
    cases n with
    | zero =>
      simp only [List.getElem?_cons_zero, Option.some_inj] at h
      subst h
      rfl
    | succ n =>
      rw [List.getElem?_cons_succ] at h
      show xs.drop n = a :: xs.drop (n + 1)
      exact ih n a h

theorem take_getLast?_of_getElem {α : Type} (l : List α) (m : Nat) (a : α)
    (h : l[m]? = some a) : (l.take (m + 1)).getLast? = some a := by
  rw [List.take_succ, h]
  rw [getLast?_append_of_ne_nil _ _ (by simp [Option.toList])]
  rfl

theorem selRecAux_congr (df : List (Nat × Nat)) (N : Nat) :
    ∀ (f₁ f₂ k : Nat) (tie : Bool), 1 ≤ f₁ → 1 ≤ f₂ →
      df.length + 1 ≤ f₁ + k → df.length + 1 ≤ f₂ + k →
      selRecAux df N f₁ k tie = selRecAux df N f₂ k tie := by
  intro f₁
  induction f₁ with
  | zero => intro f₂ k tie h1 _ _ _; omega
  | succ f₁ ih =>
    intro f₂ k tie _ h2 hb1 hb2
    cases f₂ with
    | zero => omega
    | succ f₂ =>
      simp only [selRecAux]
      by_cases hcond : k < N ∨ tie = true
      · rw [if_pos hcond, if_pos hcond]
        cases hk : df[k]? with
        | none => rfl
        | some cur =>
          cases hk2 : df[k + 1]? with
          | none => rfl
          | some next =>
            have hlt : k + 1 < df.length :=
              (List.getElem?_eq_some_iff.mp hk2).1
            show (selRecAux df N f₁ (k + 1) (cur.2 == next.2)).map (cur :: ·) =
              (selRecAux df N f₂ (k + 1) (cur.2 == next.2)).map (cur :: ·)
            rw [ih f₂ (k + 1) (cur.2 == next.2) (by omega) (by omega)
              (by omega) (by omega)]
      · rw [if_neg hcond, if_neg hcond]

/-- Once the counter has reached `top_num`, a successful rest of the loop is
exactly the transitive tie extension of the claim. -/
theorem selRec_ext (df : List (Nat × Nat)) (N : Nat) :
    ∀ (f j : Nat) (a b : Nat × Nat) (out : List (Nat × Nat)),
      N ≤ j → df[j - 1]? = some a → df[j]? = some b → 1 ≤ j →
      selRecAux df N f j (a.2 == b.2) = some out →
      out = specExtend a.2 (df.drop j) := by
  intro f
  induction f with
  | zero => intro j a b out _ _ _ _ h; simp [selRecAux] at h
  | succ f ih =>
    intro j a b out hN hja hjb hj1 hsel
    simp only [selRecAux] at hsel
    cases htie : (a.2 == b.2) with
    | false =>
      rw [htie] at hsel
      rw [if_neg (by simp only [Bool.false_eq_true, or_false]; omega)] at hsel
      have hout : out = [] := (Option.some_inj.mp hsel).symm
      subst hout
      rw [drop_eq_cons_of_getElem df j b hjb]
      show [] = if b.2 = a.2 then b :: specExtend b.2 (df.drop (j + 1)) else []
      rw [if_neg fun he => by simp [he] at htie]
    | true =>
      rw [htie] at hsel
      rw [if_pos (Or.inr rfl)] at hsel
      rw [hjb] at hsel
      cases hk2 : df[j + 1]? with
      | none => rw [hk2] at hsel; simp at hsel
      | some c =>
        rw [hk2] at hsel
        rcases Option.map_eq_some'.mp hsel with ⟨out', hsel', hout⟩
        have hrec := ih (j + 1) b c out' (by omega) (by simpa using hjb) hk2
          (by omega) hsel'
        rw [drop_eq_cons_of_getElem df j b hjb]
        show out = if b.2 = a.2 then b :: specExtend b.2 (df.drop (j + 1)) else []
        rw [if_pos (beq_iff_eq.mp htie).symm, ← hrec, ← hout]

/-- While the counter is below `top_num`, a successful run takes one genome
per position and ends in the tie-extension phase. -/
theorem selRec_main (df : List (Nat × Nat)) (N : Nat) :
    ∀ (f j : Nat) (tie : Bool) (out : List (Nat × Nat)), j < N →
      selRecAux df N f j tie = some out →
      ∃ a, df[N - 1]? = some a ∧
        out = (df.drop j).take (N - j) ++ specExtend a.2 (df.drop N) := by
  intro f
  induction f with
  | zero => intro j tie out _ h; simp [selRecAux] at h
  | succ f ih =>
    intro j tie out hjN hsel
    simp only [selRecAux] at hsel
    rw [if_pos (Or.inl hjN)] at hsel
    cases hk : df[j]? with
    | none => rw [hk] at hsel; simp at hsel
    | some cur =>
      rw [hk] at hsel
      cases hk2 : df[j + 1]? with
      | none => rw [hk2] at hsel; simp at hsel
      | some next =>
        rw [hk2] at hsel
        rcases Option.map_eq_some'.mp hsel with ⟨out', hsel', hout⟩
        by_cases hj1N : j + 1 < N
        · rcases ih (j + 1) (cur.2 == next.2) out' hj1N hsel' with ⟨a, ha, hout'⟩
          refine ⟨a, ha, ?_⟩
          rw [← hout, hout', drop_eq_cons_of_getElem df j cur hk]
          have hNj : N - j = (N - (j + 1)) + 1 := by omega
          rw [hNj]
          rfl
        · have hjN1 : j + 1 = N := by omega
          have hext := selRec_ext df N f (j + 1) cur next out' (by omega)
            (by simpa using hk) hk2 (by omega) hsel'
          refine ⟨cur, by rw [← hjN1]; simpa using hk, ?_⟩
          rw [← hout, hext, hjN1, drop_eq_cons_of_getElem df j cur hk]
          have hNj : N - j = 1 := by omega
          rw [hNj]
          have hdrop : df.drop (j + 1) = df.drop N := by rw [hjN1]
          rw [hdrop]
          rfl

/-- A successful run of the selection loop of one domain computes exactly the
claim's take-`N`-and-extend-ties selection. -/
theorem selectDomain_spec (df : List (Nat × Nat)) (N : Nat) (h1N : 1 ≤ N)
    (out : List (Nat × Nat)) (h : selectDomain df N = some out) :
    out = specSelect df N := by
  unfold selectDomain at h
  cases h0 : df[0]? with
  | none => rw [h0] at h; simp at h
  | some a0 =>
    rw [h0] at h
    cases h1 : df[1]? with
    | none => rw [h1] at h; simp at h
    | some b0 =>
      rw [h1] at h
      rcases selRec_main df N (df.length + 1) 0 (a0.2 == b0.2) out
        (by omega) h with ⟨a, ha, hout⟩
      obtain ⟨m, rfl⟩ : ∃ m, N = m + 1 := ⟨N - 1, by omega⟩
      have hlast : (df.take (m + 1)).getLast? = some a :=
        take_getLast?_of_getElem df m a (by simpa using ha)
      show out = specSelect df (m + 1)
      unfold specSelect
      rw [hlast]
      rw [hout]
      rfl

/-- The output row the source builds for a selected genome equals the row the
claim describes. -/
theorem buildRow_eq_specRow (gs : List GeneRow) (sel : Nat × Nat) :
    buildRow gs sel = specRow gs sel := by
  unfold buildRow specRow
  cases hf : gs.filter (fun r => r.ass_id == sel.1 && r.len == sel.2) with
  | nil => rfl
  | cons r rs =>
    have hrmem : r ∈ gs.filter (fun r => r.ass_id == sel.1 && r.len == sel.2) := by
      rw [hf]
      exact List.mem_cons_self _ _
    have hr := List.of_mem_filter hrmem
    simp only [Bool.and_eq_true, beq_iff_eq] at hr
    show some (TopRow.mk r.ass_id r.len ((r :: rs).map fun q => q.seqID)
        r.title r.domain) =
      some (TopRow.mk sel.1 sel.2 ((r :: rs).map fun q => q.seqID)
        r.title r.domain)
    rw [hr.1, hr.2]

theorem mapM_buildRow_eq_specRow (gs : List GeneRow) :
    ∀ sel : List (Nat × Nat),
      sel.mapM (buildRow gs) = sel.mapM (specRow gs) := by
  intro sel
  induction sel with
  | nil => rfl
  | cons x xs ih =>
    rw [List.mapM_cons, List.mapM_cons, buildRow_eq_specRow, ih]

/-- A successful per-domain computation refines the claim's description. -/
theorem domainRows_spec (gs : List GeneRow) (domain : String) (N : Nat)
    (h1N : 1 ≤ N) (out : List TopRow)
    (h : domainRows gs domain N = some out) :
    specDomainRows gs domain N = some out := by
  have h' : (selectDomain
      (sortLenDesc (groupMax (gs.filter (fun r => r.domain == domain)))) N).bind
      (fun sel => sel.mapM (buildRow gs)) = some out := h
  rcases Option.bind_eq_some.mp h' with ⟨sel, hsel, hmap⟩
  have hspec := selectDomain_spec _ N h1N sel hsel
  show (specSelect
      (sortLenDesc (groupMax (gs.filter (fun r => r.domain == domain)))) N).mapM
      (specRow gs) = some out
  rw [← hspec, ← mapM_buildRow_eq_specRow]
  exact hmap

/-- Counterexample to claim C2 as stated for *every* table: on a table whose
Archaea domain has a single genome the call fails (`none`), returning nothing,
while the claim describes a non-empty result (which `specTopLongest`
computes). -/
theorem c2_counterexample :
    make_ribogrove_top_longest_df cexC2 2 = none ∧
    specTopLongest cexC2 2 ≠ none ∧
    specTopLongest cexC2 2 ≠ some [] := by
  refine ⟨by decide, by decide, by decide⟩

/-- Claim C2 as amended: for every gene-statistics table and positive target
count `N` on which `make_ribogrove_top_longest_df` completes (no boundary read
past a domain's genome list), its result is exactly the claim's selection:
per domain (Bacteria then Archaea), the genomes ordered by maximum length
descending, truncated to `N` and transitively tie-extended, one row per
selected genome with the assembly id, the tied maximum length, all sequence
IDs at the maximum, and the title and domain of the first such sequence. -/
theorem c2_top_longest_refines_spec (gs : List GeneRow) (N : Nat)
    (out : List TopRow) (h1N : 1 ≤ N)
    (h : make_ribogrove_top_longest_df gs N = some out) :
    specTopLongest gs N = some out := by
  have h' : (domainRows gs "Bacteria" N).bind
      (fun bact => (domainRows gs "Archaea" N).bind
        (fun arch => some (bact ++ arch))) = some out := h
  rcases Option.bind_eq_some.mp h' with ⟨bact, hbact, h2⟩
  rcases Option.bind_eq_some.mp h2 with ⟨arch, harch, h3⟩
  show (specDomainRows gs "Bacteria" N).bind
      (fun bact => (specDomainRows gs "Archaea" N).bind
        (fun arch => some (bact ++ arch))) = some out
  rw [domainRows_spec gs "Bacteria" N h1N bact hbact,
    domainRows_spec gs "Archaea" N h1N arch harch]
  exact h3

/-- Witness for C2: a table on which the selector succeeds, with the result
matching the spec selection. -/
theorem c2_witness : specTopLongest w2input 2 = some w2out :=
  c2_top_longest_refines_spec w2input 2 w2out (by decide) (by decide)

end Rybasom
